import Mathlib

/-!
# Verification of the MCQ OCR text parser

Shallow embedding of `parseMCQFromText` from `src/ocr-working.ts` (and of the
near-duplicate variant file), working over `List Char`.  JavaScript strings are
modelled as lists of characters; each regular expression used by the source is
translated into an explicit scanning function with the same matching semantics
(leftmost match, greedy/lazy quantifier behaviour, case-insensitivity where the
`i` flag is present).
-/

namespace MLS

/-- The character set matched by the JavaScript regex class `\s`
(ECMAScript WhiteSpace plus LineTerminator). -/
def isJsWs (c : Char) : Bool :=
  c == ' ' || c == '\t' || c == '\n' || c == '\r' ||
  c.val == 0x0b || c.val == 0x0c || c.val == 0xa0 || c.val == 0x1680 ||
  (0x2000 ≤ c.val && c.val ≤ 0x200a) || c.val == 0x2028 || c.val == 0x2029 ||
  c.val == 0x202f || c.val == 0x205f || c.val == 0x3000 || c.val == 0xfeff

/-- ASCII letter, the class `[a-zA-Z]` used by the cleanup regexes. -/
def isAsciiLetter (c : Char) : Bool :=
  ('a' ≤ c && c ≤ 'z') || ('A' ≤ c && c ≤ 'Z')

/-- The JavaScript regex class `\w` (`[A-Za-z0-9_]`), used for `\b` boundaries. -/
def isWordChar (c : Char) : Bool :=
  isAsciiLetter c || c.isDigit || c == '_'

/-- A letter in `[A-D]` under the `i` flag. -/
def isOptLetter (c : Char) : Bool :=
  c == 'A' || c == 'B' || c == 'C' || c == 'D' ||
  c == 'a' || c == 'b' || c == 'c' || c == 'd'

/-- `.replace(/[|]/g, 'I')` acting on one character. -/
def barToI (c : Char) : Char :=
  if c = '|' then 'I' else c

/-- Does the head of the list (if any) fail `p`? (Used for `\b`-style boundary
checks and for run-collapsing invariants.) -/
def headOk (p : Char → Bool) : List Char → Bool
  | [] => true
  | d :: _ => !p d

/-- Worker for run collapsing: the flag records whether we are inside a run of
`p`-characters whose replacement has already been emitted. -/
def collapseAux (p : Char → Bool) (r : Char) : Bool → List Char → List Char
  | _, [] => []
  | inRun, c :: cs =>
    if p c then
      if inRun then collapseAux p r true cs
      else r :: collapseAux p r true cs
    else c :: collapseAux p r false cs

/-- `.replace(/π+/g, r)` for a character class `π`: every maximal run of
characters satisfying `p` becomes the single character `r`. -/
def collapseRuns (p : Char → Bool) (r : Char) (l : List Char) : List Char :=
  collapseAux p r false l

/-- JavaScript `String.prototype.trim`: strip leading and trailing whitespace. -/
def trimChars (l : List Char) : List Char :=
  ((l.dropWhile isJsWs).reverse.dropWhile isJsWs).reverse

/-- `.replace(/^[^a-zA-Z]*/, '')`: strip a leading run of non-letters. -/
def stripLeadingNonLetters (l : List Char) : List Char :=
  l.dropWhile (fun c => !isAsciiLetter c)

/-- The text normalizer (`ocr-working.ts` lines 35-39): collapse newline runs,
collapse whitespace runs, replace `|` by `I`, trim. -/
def normalizeText (l : List Char) : List Char :=
  trimChars (List.map barToI (collapseRuns isJsWs ' ' (collapseRuns (· == '\n') ' ' l)))

/-- `.replace(/\s+/g, ' ')` as used on option/question fragments. -/
def collapseWs (l : List Char) : List Char :=
  collapseRuns isJsWs ' ' l

/-- Try to match the token part `[QE]\d{2,4}\b` of the question-id regex at the
head of `l`; on success return the captured token (original case). The maximal
digit run must have length 2-4 because any shorter greedy backtrack leaves a
digit, hence a word character, after the token and the `\b` fails. -/
def qidTokenAt : List Char → Option (List Char)
  | [] => none
  | c :: cs =>
    if c == 'Q' || c == 'q' || c == 'E' || c == 'e' then
      let ds := cs.takeWhile Char.isDigit
      let rest := cs.drop ds.length
      if 2 ≤ ds.length && ds.length ≤ 4 && headOk isWordChar rest then
        some (c :: ds)
      else none
    else none

/-- Scan for the first match of `/(?:^|\s)([QE]\d{2,4})\b/i`: the flag says
whether the current position is a permitted token start (start of string, or
preceded by whitespace). Returns the captured token and the suffix following
it. -/
def qidScan : Bool → List Char → Option (List Char × List Char)
  | _, [] => none
  | allowed, c :: cs =>
    if allowed then
      match qidTokenAt (c :: cs) with
      | some tok => some (tok, (c :: cs).drop tok.length)
      | none => qidScan (isJsWs c) cs
    else qidScan (isJsWs c) cs

/-- First captured token of `/(?:^|\s)([QE]\d{2,4})\b/i` on the clean text. -/
def findQid (t : List Char) : Option (List Char) :=
  (qidScan true t).map Prod.fst

/-- `textAfterQuestionId` (lines 51-55): everything after the whole match of
`/(?:^|\s)([QE]\d{2,4})\b\.?\s*/i`, i.e. after the token, one optional period,
and the following whitespace run; the whole text when there is no match. -/
def textAfterQid (t : List Char) : List Char :=
  match qidScan true t with
  | none => t
  | some (_, rest) =>
    let rest1 := match rest with
      | '.' :: rs => rs
      | _ => rest
    rest1.dropWhile isJsWs

/-- JavaScript `filename.replace('.png', '')`: remove the first occurrence of
the literal `.png` (anywhere in the string), leaving the rest unchanged. -/
def removeFirstPng : List Char → List Char
  | [] => []
  | c :: cs =>
    if ['.', 'p', 'n', 'g'].isPrefixOf (c :: cs) then cs.drop 3
    else c :: removeFirstPng cs

/-- Modelled from the spec claim wording only (for comparison with the code):
strip a trailing `.png` extension from the filename, if present. -/
def stripTrailingPng (f : List Char) : List Char :=
  if ['.', 'p', 'n', 'g'].isSuffixOf f then f.take (f.length - 4)
  else f

/-- The `questionId` computation (lines 42-44): first regex token if any,
otherwise `"Q_" + filename.replace('.png', '')`. -/
def questionIdOf (cleanText filename : List Char) : List Char :=
  match findQid cleanText with
  | some tok => tok
  | none => 'Q' :: '_' :: removeFirstPng filename

/-- Spec-style description of a permitted match start for `(?:^|\s)`: start of
string, or preceded by a whitespace character. -/
def Allowed (t : List Char) (i : Nat) : Prop :=
  i = 0 ∨ (0 < i ∧ ∃ h : i - 1 < t.length, isJsWs (t.get ⟨i - 1, h⟩) = true)

/-- Spec-style description of the token `[QE]\d{2,4}\b` at index `j` of `t`:
a `[QE]` letter (either case), a digit run of length 2-4, and a word boundary
after it. -/
def TokenSpec (t : List Char) (j : Nat) : Prop :=
  (∃ h : j < t.length,
    (t.get ⟨j, h⟩ = 'Q' ∨ t.get ⟨j, h⟩ = 'q' ∨
     t.get ⟨j, h⟩ = 'E' ∨ t.get ⟨j, h⟩ = 'e')) ∧
  ∃ d : Nat, 2 ≤ d ∧ d ≤ 4 ∧ j + 1 + d ≤ t.length ∧
    (∀ m : Nat, m < d → ∃ h : j + 1 + m < t.length,
      (t.get ⟨j + 1 + m, h⟩).isDigit = true) ∧
    (j + 1 + d = t.length ∨
      ∃ h : j + 1 + d < t.length, isWordChar (t.get ⟨j + 1 + d, h⟩) = false)

/-- Spec-style description of a full match of `/(?:^|\s)([QE]\d{2,4})\b/i`
whose captured token starts at index `j`. -/
def QidMatchAt (t : List Char) (j : Nat) : Prop :=
  Allowed t j ∧ TokenSpec t j

/-- Case-insensitive literal match at the head of `s` (pattern given in
lowercase); returns the remaining suffix on success. -/
def ciMatch : List Char → List Char → Option (List Char)
  | [], s => some s
  | _, [] => none
  | p :: ps, c :: cs => if c.toLower == p then ciMatch ps cs else none

/-- `\s+`: require at least one whitespace character, consume the whole run. -/
def wsPlus : List Char → Option (List Char)
  | [] => none
  | c :: cs => if isJsWs c then some (cs.dropWhile isJsWs) else none

/-- A phrase `w1\s+w2\s+...` of case-insensitive literal words. -/
def ciPhrase : List (List Char) → List Char → Bool
  | [], _ => true
  | [w], s => (ciMatch w s).isSome
  | w :: ws, s =>
    match ciMatch w s with
    | none => false
    | some rest =>
      match wsPlus rest with
      | none => false
      | some rest2 => ciPhrase ws rest2

/-- Disjunction of the six `optionStartPatterns` lookaheads (lines 59-66):
does one of them succeed at this position? Each is `\s*` followed by a
literal shape, so we drop the whitespace run first. -/
def boundaryLook (s : List Char) : Bool :=
  let s' := s.dropWhile isJsWs
  (match s' with
   | '(' :: x :: ')' :: _ => isOptLetter x
   | _ => false) ||
  (match s' with
   | x :: d :: _ => isOptLetter x && (d == ')' || d == '.')
   | _ => false) ||
  ciPhrase [['u','p','l','o','a','d'], ['t','h','e'], ['d','a','t','a']] s' ||
  ciPhrase [['u','s','e'], ['a'], ['s','u','b','s','e','t']] s' ||
  ciPhrase [['s','e','n','d'], ['t','h','e']] s' ||
  ciPhrase [['c','r','e','a','t','e']] s'

/-- `substring(0, questionEndIndex)`: the prefix of the text before the first
position at which one of the option-start lookaheads succeeds (the whole text
when none succeeds anywhere). -/
def beforeOptionsSplit : List Char → List Char
  | [] => []
  | c :: cs => if boundaryLook (c :: cs) then [] else c :: beforeOptionsSplit cs

/-- Group 1 of `/(.*\?)/s`: since `.*` is greedy (and dotall), the match is
the prefix of the text up to and including the LAST question mark; `none`
when the text has no question mark. -/
def lastQmarkSplit : List Char → Option (List Char)
  | [] => none
  | c :: cs =>
    match lastQmarkSplit cs with
    | some pre => some (c :: pre)
    | none => if c == '?' then some [c] else none

/-- Final cleanup of the question text (lines 98-101): strip leading
non-letters, collapse whitespace, trim. -/
def questionCleanup (l : List Char) : List Char :=
  trimChars (collapseWs (stripLeadingNonLetters l))

/-- Question-body extraction (lines 57-101) on the text after the question id:
strategy 1 (boundary before options, kept only when longer than 50), strategy 2
(greedy prefix up to the last question mark), strategy 3 (first 500 characters,
kept only when longer than 50 after trim), then cleanup. -/
def extractQuestionText (tAfter : List Char) : List Char :=
  let b := trimChars (beforeOptionsSplit tAfter)
  let qt1 := if 50 < b.length then b else []
  let qt2 :=
    if qt1 = [] then
      match lastQmarkSplit tAfter with
      | some pre => trimChars pre
      | none => []
    else qt1
  let qt3 :=
    if qt2 = [] then
      let fb := trimChars (tAfter.take 500)
      if 50 < fb.length then fb else []
    else qt2
  questionCleanup qt3

/-- Lookahead `(?=\s*\([A-D]\)|$)` of the first option pattern. -/
def look1 (s : List Char) : Bool :=
  (match s.dropWhile isJsWs with
   | '(' :: x :: ')' :: _ => isOptLetter x
   | _ => false) || s.isEmpty

/-- Lookahead `(?=\s*[A-D][\)\.]|$)` of the second and third option patterns. -/
def look23 (s : List Char) : Bool :=
  (match s.dropWhile isJsWs with
   | x :: d :: _ => isOptLetter x && (d == ')' || d == '.')
   | _ => false) || s.isEmpty

/-- Lazy capture group: starting from the current position, grow the group one
character at a time, stopping at the first position where the lookahead
succeeds; characters satisfying `blocked` are outside the group's character
class and end the attempt. -/
def growMatch (blocked : Char → Bool) (look : List Char → Bool) :
    List Char → List Char → Option (List Char)
  | acc, [] => if look [] then some acc.reverse else none
  | acc, c :: cs =>
    if look (c :: cs) then some acc.reverse
    else if blocked c then none
    else growMatch blocked look (c :: acc) cs

/-- Backtracking for the greedy `\s*` before the capture group: try consuming
`k+1, k, ..., 0` whitespace characters, largest first. -/
def wsBacktrack (blocked : Char → Bool) (look : List Char → Bool)
    (rest : List Char) : Nat → Option (List Char)
  | 0 => growMatch blocked look [] rest
  | k + 1 =>
    (growMatch blocked look [] (rest.drop (k + 1))).orElse
      (fun _ => wsBacktrack blocked look rest k)

/-- `\s*(<group>*?)(?=lookahead)`: greedy whitespace, then a lazy group. -/
def bodyMatch (blocked : Char → Bool) (look : List Char → Bool)
    (rest : List Char) : Option (List Char) :=
  wsBacktrack blocked look rest (rest.takeWhile isJsWs).length

/-- First option pattern (line 114): `\(L\)\s*([^\(]*?)(?=\s*\([A-D]\)|$)/i`,
scanning left to right for `(L)` and trying the body there; on failure the
scan resumes one character later. -/
def p1Scan (L : Char) : List Char → Option (List Char)
  | [] => none
  | c :: cs =>
    if c == '(' then
      match cs with
      | x :: ')' :: rest =>
        if x.toLower == L.toLower then
          match bodyMatch (· == '(') look1 rest with
          | some g => some g
          | none => p1Scan L cs
        else p1Scan L cs
      | _ => p1Scan L cs
    else p1Scan L cs

/-- Second option pattern (line 115):
`\sL[\)\.]\s*([^A-D]*?)(?=\s*[A-D][\)\.]|$)/i`; with the `i` flag the group
class `[^A-D]` also excludes `a`-`d`. -/
def p2Scan (L : Char) : List Char → Option (List Char)
  | [] => none
  | c :: cs =>
    if isJsWs c then
      match cs with
      | x :: d :: rest =>
        if x.toLower == L.toLower && (d == ')' || d == '.') then
          match bodyMatch isOptLetter look23 rest with
          | some g => some g
          | none => p2Scan L cs
        else p2Scan L cs
      | _ => p2Scan L cs
    else p2Scan L cs

/-- Third option pattern (line 116): `L[\)\.]\s*([^\n]*?)(?=\s*[A-D][\)\.]|$)/i`. -/
def p3Scan (L : Char) : List Char → Option (List Char)
  | [] => none
  | c :: cs =>
    if c.toLower == L.toLower then
      match cs with
      | d :: rest =>
        if d == ')' || d == '.' then
          match bodyMatch (· == '\n') look23 rest with
          | some g => some g
          | none => p3Scan L cs
        else p3Scan L cs
      | [] => none
    else p3Scan L cs

/-- The selection loop (lines 119-125): keep the trimmed captured text of the
candidate whose trimmed text is strictly longer than the best so far; an empty
capture is falsy in JavaScript and is skipped. -/
def pickBest : List Char → List (Option (List Char)) → List Char
  | acc, [] => acc
  | acc, none :: ms => pickBest acc ms
  | acc, some s :: ms =>
    if s.isEmpty then pickBest acc ms
    else if acc.length < (trimChars s).length then pickBest (trimChars s) ms
    else pickBest acc ms

/-- Cleanup of a selected option text (lines 128-131): collapse whitespace,
strip leading non-letters, trim. -/
def optionCleanup (l : List Char) : List Char :=
  trimChars (stripLeadingNonLetters (collapseWs l))

/-- An extracted option: `{ id, text }`. Ids are the single letters A-D. -/
structure MCQOption where
  id : Char
  text : List Char
deriving DecidableEq, Repr

/-- One iteration of the labeled-extraction loop (lines 112-140) for letter
`L`: select the best candidate among the three patterns, clean it up, and keep
it only when its length exceeds 5. -/
def optionFor (t : List Char) (L : Char) : Option MCQOption :=
  let best := pickBest [] [p1Scan L t, p2Scan L t, p3Scan L t]
  if best.isEmpty then none
  else
    let ct := optionCleanup best
    if 5 < ct.length then some ⟨L, ct⟩ else none

/-- The four option letters, in loop order. -/
def optionLetters : List Char := ['A', 'B', 'C', 'D']

/-- The labeled-extraction pass: one optional option per letter, in order. -/
def labeledOptions (t : List Char) : List MCQOption :=
  optionLetters.filterMap (optionFor t)

/-- A located option marker `(X)` in the clean text (lines 156-168). -/
structure MarkerPos where
  id : Char
  start : Nat
  stop : Nat
deriving DecidableEq, Repr

/-- First index of `(L)` (case-insensitive) in the text, if any. -/
def findParenIdx (L : Char) : Nat → List Char → Option Nat
  | _, [] => none
  | i, c :: cs =>
    match cs with
    | x :: ')' :: _ =>
      if c == '(' && x.toLower == L.toLower then some i
      else findParenIdx L (i + 1) cs
    | _ => findParenIdx L (i + 1) cs

/-- Marker positions of the already-found options (lines 156-168); an option
whose `(X)` marker does not occur contributes nothing. -/
def markerPositions (cleanText : List Char) (opts : List MCQOption) : List MarkerPos :=
  opts.filterMap (fun o =>
    (findParenIdx o.id 0 cleanText).map (fun i => ⟨o.id, i, i + 3⟩))

/-- Sentence-terminal punctuation `[.!?]`. -/
def isSentEnd (c : Char) : Bool :=
  c == '.' || c == '!' || c == '?'

/-- Worker for `split(/[.!?]\s+/)`: the flag records that we are consuming the
whitespace of a separator just matched. -/
def splitSentAux : Bool → List Char → List Char → List (List Char)
  | _, acc, [] => [acc.reverse]
  | skipping, acc, c :: cs =>
    if skipping && isJsWs c then splitSentAux true acc cs
    else if isSentEnd c && (match cs with | d :: _ => isJsWs d | [] => false) then
      acc.reverse :: splitSentAux true [] cs
    else splitSentAux false (c :: acc) cs

/-- `betweenText.split(/[.!?]\s+/)` (line 190). -/
def splitSentences (l : List Char) : List (List Char) :=
  splitSentAux false [] l

/-- The action-verb alternation, lowercase, in source order. -/
def actionVerbs : List (List Char) :=
  [ ['u','s','e'], ['s','e','n','d'], ['c','r','e','a','t','e'], ['b','u','i','l','d'],
    ['c','o','n','f','i','g','u','r','e'], ['t','r','a','i','n'], ['d','e','p','l','o','y'],
    ['i','m','p','l','e','m','e','n','t'] ]

/-- Case-insensitive literal match keeping the consumed original characters. -/
def ciKeep : List Char → List Char → Option (List Char × List Char)
  | [], s => some ([], s)
  | _, [] => none
  | p :: ps, c :: cs =>
    if c.toLower == p then (ciKeep ps cs).map (fun pr => (c :: pr.1, pr.2))
    else none

/-- Try a list of literal alternatives in order. -/
def tryVerbs : List (List Char) → List Char → Option (List Char × List Char)
  | [], _ => none
  | v :: vs, s =>
    match ciKeep v s with
    | some r => some r
    | none => tryVerbs vs s

/-- `(?:Use|Send|Create|Build|Configure|Train|Deploy|Implement)` at the head
of `s`, case-insensitively; no alternative is a prefix of another. -/
def verbAt (s : List Char) : Option (List Char × List Char) :=
  tryVerbs actionVerbs s

/-- Case-sensitive literal match at the head (for `String.includes`). -/
def startsWithLit : List Char → List Char → Bool
  | [], _ => true
  | _ :: _, [] => false
  | p :: ps, c :: cs => p == c && startsWithLit ps cs

/-- JavaScript `String.includes`: case-sensitive substring occurrence. -/
def containsLit (pat : List Char) : List Char → Bool
  | [] => startsWithLit pat []
  | c :: cs => startsWithLit pat (c :: cs) || containsLit pat cs

/-- Does a cleaned chunk qualify as an option candidate (lines 197-199)? -/
def chunkOk (chunk : List Char) : Bool :=
  (verbAt chunk).isSome ||
  containsLit ['A','m','a','z','o','n'] chunk ||
  containsLit ['A','P','I'] chunk

/-- First qualifying cleaned chunk, if any (lines 193-203): clean each chunk
(trim then collapse whitespace) and take the first that qualifies. -/
def firstGoodChunk : List (List Char) → Option (List Char)
  | [] => none
  | ch :: chs =>
    let cc := collapseWs (trimChars ch)
    if chunkOk cc then some cc else firstGoodChunk chs

/-- Candidate text extracted from the text between two adjacent markers
(lines 182-204): only spans longer than 50 after trim are considered, split
into sentence chunks, chunks of trimmed length over 30 kept, first qualifying
chunk selected. -/
def gapCandidate (between : List Char) : Option (List Char) :=
  let bt := trimChars between
  if 50 < bt.length then
    firstGoodChunk ((splitSentences bt).filter (fun ch => 30 < (trimChars ch).length))
  else none

/-- Candidates from all adjacent marker pairs, in order (lines 177-205).
Marker positions never overlap, so `b.start - a.stop` is an honest span. -/
def betweenCandidates (cleanText : List Char) : List MarkerPos → List (List Char)
  | a :: b :: rest =>
    let between := (cleanText.drop a.stop).take (b.start - a.stop)
    (match gapCandidate between with
     | some c => c :: betweenCandidates cleanText (b :: rest)
     | none => betweenCandidates cleanText (b :: rest))
  | _ => []

/-- `[^.!?]*[.!?]?`: the sentence body after a matched verb, consuming the
terminator when present; returns the consumed part and the remainder. -/
def sentenceEndSplit (s : List Char) : List Char × List Char :=
  let body := s.takeWhile (fun c => !isSentEnd c)
  let rest := s.drop body.length
  match rest with
  | t :: rs => (body ++ [t], rs)
  | [] => (body, [])

/-- Global scan of `/(?:^|\s)((?:Use|...)[^.!?]*[.!?]?)/gi` (line 209),
collecting whole matches. `atStart` is true only at position zero before any
match, where the `^` alternative can apply. Each step either produces a match
(consuming at least the verb) or advances one character, so `length + 1` fuel
never runs out. -/
def actionScan : Nat → Bool → List Char → List (List Char)
  | 0, _, _ => []
  | _ + 1, _, [] => []
  | fuel + 1, atStart, c :: cs =>
    match (if atStart then verbAt (c :: cs) else none) with
    | some (v, rest) =>
      let p := sentenceEndSplit rest
      (v ++ p.1) :: actionScan fuel false p.2
    | none =>
      if isJsWs c then
        match verbAt cs with
        | some (v, rest) =>
          let p := sentenceEndSplit rest
          (c :: (v ++ p.1)) :: actionScan fuel false p.2
        | none => actionScan fuel false cs
      else actionScan fuel false cs

/-- All whole matches of the action-sentence regex on the clean text. -/
def actionMatches (t : List Char) : List (List Char) :=
  actionScan (t.length + 1) true t

/-- `toLowerCase()`. -/
def lowerList (l : List Char) : List Char :=
  l.map Char.toLower

/-- Strategy 2 of gap inference (lines 208-223): append each cleaned action
sentence longer than 40 that does not duplicate (first 30 characters,
case-insensitive) an existing option text or collected candidate. -/
def addActionSentences (opts : List MCQOption) (cands : List (List Char))
    (sents : List (List Char)) : List (List Char) :=
  sents.foldl (fun acc s =>
    let cleanS := collapseWs (trimChars s)
    let already := (opts.map (fun o => o.text) ++ acc).any
      (fun txt => (lowerList txt).take 30 == (lowerList cleanS).take 30)
    if !already && 40 < cleanS.length then acc ++ [cleanS] else acc) cands

/-- The found-id set of the gap block (line 146): option ids, uppercased. -/
def foundIdsOf (opts : List MCQOption) : List Char :=
  opts.map (fun o => o.id.toUpper)

/-- The missing letters (line 147). -/
def missingIdsOf (opts : List MCQOption) : List Char :=
  optionLetters.filter (fun L => !((foundIdsOf opts).contains L))

/-- The candidate texts collected by the gap block (lines 156-223):
between-marker candidates, topped up by action sentences when still short of
the missing-letter count. -/
def gapCandsOf (cleanText : List Char) (opts : List MCQOption) : List (List Char) :=
  let positions :=
    List.insertionSort (fun a b : MarkerPos => a.start ≤ b.start)
      (markerPositions cleanText opts)
  let cands1 := betweenCandidates cleanText positions
  if cands1.length < (missingIdsOf opts).length then
    addActionSentences opts cands1 (actionMatches cleanText)
  else cands1

/-- The gap-inference fallback plus final sort (lines 142-240), entered when
fewer than 4 labeled options were found. -/
def gapAugment (cleanText : List Char) (opts : List MCQOption) : List MCQOption :=
  List.insertionSort (fun a b : MCQOption => a.id ≤ b.id)
    (if (missingIdsOf opts).isEmpty then opts
     else opts ++ List.zipWith (fun L txt => (⟨L, txt⟩ : MCQOption))
        (missingIdsOf opts) (gapCandsOf cleanText opts))

/-- The parsed question record (interface `MCQQuestion`). -/
structure MCQQuestion where
  questionId : List Char
  filename : List Char
  question : List Char
  options : List MCQOption
  rawText : List Char
deriving DecidableEq, Repr

/-- The final options list: the labeled pass, then gap inference plus sorting
when fewer than 4 labeled options were found (lines 142-240). -/
def finalOptionsOf (cleanText : List Char) : List MCQOption :=
  if (labeledOptions cleanText).length < 4 then
    gapAugment cleanText (labeledOptions cleanText)
  else labeledOptions cleanText

/-- `parseMCQFromText` (lines 32-263). The `Option` result mirrors the
`MCQQuestion | null` return type; every string operation in the body is total,
so the embedding always returns `some`. -/
def parseMCQFromText (text filename : List Char) : Option MCQQuestion :=
  some ⟨questionIdOf (normalizeText text) filename, filename,
        extractQuestionText (textAfterQid (normalizeText text)),
        finalOptionsOf (normalizeText text), text⟩

/-- The question-word alternation of the variant file, lowercase. -/
def whWords : List (List Char) :=
  [ ['w','h','i','c','h'], ['w','h','a','t'], ['h','o','w'], ['w','h','y'],
    ['w','h','e','n'], ['w','h','e','r','e'] ]

/-- The keyword alternation of the variant file, lowercase. -/
def kwWords : List (List Char) :=
  [ ['s','o','l','u','t','i','o','n'], ['r','e','q','u','i','r','e','m','e','n','t','s'],
    ['m','e','e','t'], ['b','u','i','l','d'],
    ['a','p','p','l','i','c','a','t','i','o','n'] ]

/-- Prefix of `s` up to and including the first question mark. -/
def findFirstQm : List Char → Option (List Char)
  | [] => none
  | c :: cs =>
    if c == '?' then some [c]
    else (findFirstQm cs).map (fun pre => c :: pre)

/-- Worker for variant pattern 1 `([^.]*(?:Which|...)[^?]*\?)/i` inside one
dot-free segment: `revPre` holds the segment characters before the current
position (reversed). The greedy `[^.]*` prefers the LAST question-word start
in the segment for which a question mark follows, so the recursive (later)
result wins; the group runs from the segment start through that mark. -/
def whSegScan : List Char → List Char → List Char → Option (List Char)
  | _, [], _ => none
  | revPre, c :: rest, tail =>
    let here : Option (List Char) :=
      match tryVerbs whWords ((c :: rest) ++ tail) with
      | some (w, after) =>
        match findFirstQm after with
        | some qm => some (revPre.reverse ++ w ++ qm)
        | none => none
      | none => none
    match whSegScan (c :: revPre) rest tail with
    | some g => some g
    | none => here

/-- Variant pattern 1: leftmost match is anchored at the start of the first
dot-free segment containing a viable question word; fuel `length + 1` suffices
because each failed segment consumes at least its dot. -/
def variantP1Go : Nat → List Char → Option (List Char)
  | 0, _ => none
  | _ + 1, [] => none
  | fuel + 1, t =>
    let seg := t.takeWhile (· != '.')
    let tail := t.drop seg.length
    match whSegScan [] seg tail with
    | some g => some g
    | none =>
      match tail with
      | [] => none
      | _ :: ts => variantP1Go fuel ts

/-- Group 1 of variant pattern 1 on the whole text. -/
def variantP1 (t : List Char) : Option (List Char) :=
  variantP1Go (t.length + 1) t

/-- Lookahead `(?=\s*A[\)\.])` of variant pattern 2 (case-sensitive). -/
def lookV2 (s : List Char) : Bool :=
  match s.dropWhile isJsWs with
  | 'A' :: d :: _ => d == ')' || d == '.'
  | _ => false

/-- Worker for variant pattern 2 `(.*?)(?=\s*A[\)\.])/s`: the lazy dotall
group grows from position 0 until the lookahead first succeeds. -/
def variantP2Go : List Char → List Char → Option (List Char)
  | acc, s =>
    if lookV2 s then some acc.reverse
    else
      match s with
      | [] => none
      | c :: cs => variantP2Go (c :: acc) cs

/-- Group 1 of variant pattern 2 on the whole text. -/
def variantP2 (t : List Char) : Option (List Char) :=
  variantP2Go [] t

/-- Worker for variant pattern 3
`([^.]*(?:solution|requirements|meet|build|application)[^.?]*[.?]?)/i` inside
one dot-free segment: like `whSegScan` but the tail after the keyword is the
maximal `[.?]`-free run plus an optional terminator, with no further
requirement, so the last keyword start in the segment always wins. -/
def kwSegScan : List Char → List Char → List Char → Option (List Char)
  | _, [], _ => none
  | revPre, c :: rest, tail =>
    let here : Option (List Char) :=
      match tryVerbs kwWords ((c :: rest) ++ tail) with
      | some (w, after) =>
        let body := after.takeWhile (fun ch => !(ch == '.' || ch == '?'))
        let rest2 := after.drop body.length
        let term := match rest2 with
          | t :: _ => [t]
          | [] => []
        some (revPre.reverse ++ w ++ body ++ term)
      | none => none
    match kwSegScan (c :: revPre) rest tail with
    | some g => some g
    | none => here

/-- Variant pattern 3, segment by segment. -/
def variantP3Go : Nat → List Char → Option (List Char)
  | 0, _ => none
  | _ + 1, [] => none
  | fuel + 1, t =>
    let seg := t.takeWhile (· != '.')
    let tail := t.drop seg.length
    match kwSegScan [] seg tail with
    | some g => some g
    | none =>
      match tail with
      | [] => none
      | _ :: ts => variantP3Go fuel ts

/-- Group 1 of variant pattern 3 on the whole text. -/
def variantP3 (t : List Char) : Option (List Char) :=
  variantP3Go (t.length + 1) t

/-- The variant loop body (part_000 lines 58-64): accept a match whose group
is longer than 50 characters, trimmed. -/
def condPick (m : Option (List Char)) : Option (List Char) :=
  match m with
  | some g => if 50 < g.length then some (trimChars g) else none
  | none => none

/-- Separator `/\sA[\)\.]]/` of the variant fallback (note the literal `]`). -/
def sepAt1 (s : List Char) : Bool :=
  match s with
  | c :: 'A' :: d :: ']' :: _ => isJsWs c && (d == ')' || d == '.')
  | _ => false

/-- Separator `/\s[A-D][\)\.]]/` of the variant fallback. -/
def sepAt2 (s : List Char) : Bool :=
  match s with
  | c :: x :: d :: ']' :: _ =>
    isJsWs c && (x == 'A' || x == 'B' || x == 'C' || x == 'D') &&
    (d == ')' || d == '.')
  | _ => false

/-- `split(sep)[0]` together with whether the separator occurs at all. -/
def splitBefore (sep : List Char → Bool) : List Char → (List Char × Bool)
  | [] => ([], false)
  | c :: cs =>
    if sep (c :: cs) then ([], true)
    else
      let r := splitBefore sep cs
      (c :: r.1, r.2)

/-- The variant fallback body extraction (part_000 lines 66-76). -/
def variantFallback (cleanText : List Char) : List Char :=
  let p1 := splitBefore sepAt1 cleanText
  if p1.2 then trimChars p1.1
  else
    let p2 := splitBefore sepAt2 cleanText
    let b := trimChars p2.1
    if b = [] then cleanText.take 300 else b

/-- Variant question-text extraction (part_000 lines 48-82). -/
def variantQText (cleanText : List Char) : List Char :=
  let r1 := condPick (variantP1 cleanText)
  let r2 := match r1 with
    | some g => some g
    | none => condPick (variantP2 cleanText)
  let r3 := match r2 with
    | some g => some g
    | none => condPick (variantP3 cleanText)
  let qt := match r3 with
    | some g => g
    | none => []
  let qt2 := if qt = [] then variantFallback cleanText else qt
  questionCleanup qt2

/-- Case-insensitive substring occurrence (pattern given in lowercase). -/
def ciContains (pat : List Char) : List Char → Bool
  | [] => (ciMatch pat []).isSome
  | c :: cs => (ciMatch pat (c :: cs)).isSome || ciContains pat cs

/-- The hardcoded option-B text of the variant gap recovery (part_000 line 138). -/
def hardcodedB : List Char :=
  String.toList "Use a subset of the survey responses to train an Amazon Comprehend custom entity recognition to identify Pll data in the survey responses"

/-- The variant gap recovery (part_000 lines 124-146): only a missing B is
ever recovered, by a literal case-insensitive phrase search. -/
def variantGap (cleanText : List Char) (opts : List MCQOption) : List MCQOption :=
  let foundIds := opts.map (fun o => o.id.toUpper)
  let withB :=
    if !(foundIds.contains 'B') && ciContains (lowerList hardcodedB) cleanText then
      opts ++ [⟨'B', hardcodedB⟩]
    else opts
  List.insertionSort (fun a b : MCQOption => a.id ≤ b.id) withB

/-- The variant's final options list (part_000 lines 124-146). -/
def variantFinalOptionsOf (cleanText : List Char) : List MCQOption :=
  if (labeledOptions cleanText).length < 4 then
    variantGap cleanText (labeledOptions cleanText)
  else labeledOptions cleanText

/-- `parseMCQFromText` of the variant file (part_000 lines 32-169). -/
def parseMCQVariant (text filename : List Char) : Option MCQQuestion :=
  some ⟨questionIdOf (normalizeText text) filename, filename,
        variantQText (normalizeText text),
        variantFinalOptionsOf (normalizeText text), text⟩

/-- Invariant characterizing fixed points of `collapseRuns p r`: every
character satisfying `p` is `r` and is not followed by another `p`-character. -/
def runFree (p : Char → Bool) (r : Char) : List Char → Bool
  | [] => true
  | c :: cs => ((!p c) || (c == r && headOk p cs)) && runFree p r cs

instance : IsTotal MCQOption (fun a b => a.id ≤ b.id) :=
  ⟨fun a b => le_total a.id b.id⟩

instance : IsTrans MCQOption (fun a b => a.id ≤ b.id) :=
  ⟨fun _ _ _ hab hbc => le_trans hab hbc⟩

/-! ## Theorems -/

theorem collapseAux_eq_self {p : Char → Bool} {r : Char} (l : List Char)
    (h : ∀ c ∈ l, p c = false) (flag : Bool) : collapseAux p r flag l = l := by
  induction l generalizing flag with
  | nil => rfl
  | cons c cs ih =>
    have hc : p c = false := h c (by simp)
    simp [collapseAux, hc, ih (fun d hd => h d (by simp [hd]))]

theorem collapseAux_true_head {p : Char → Bool} {r : Char} :
    ∀ (l : List Char) (c : Char) (cs : List Char),
      collapseAux p r true l = c :: cs → p c = false := by
  intro l
  induction l with
  | nil => intro c cs h; simp [collapseAux] at h
  | cons d ds ih =>
    intro c cs h
    by_cases hd : p d = true
    · exact ih c cs (by simpa [collapseAux, hd] using h)
    · simp only [collapseAux, hd] at h
      simp only [Bool.false_eq_true, if_false] at h
      obtain ⟨rfl, -⟩ := List.cons.inj h
      simpa using hd

theorem runFree_cons {p : Char → Bool} {r c : Char} {cs : List Char} :
    runFree p r (c :: cs) = (((!p c) || (c == r && headOk p cs)) && runFree p r cs) := rfl

theorem runFree_cons_of_parts {p : Char → Bool} {r c : Char} {cs : List Char}
    (h1 : ((!p c) || (c == r && headOk p cs)) = true)
    (h2 : runFree p r cs = true) : runFree p r (c :: cs) = true := by
  rw [runFree_cons, h1, h2]; rfl

theorem headOk_of_not {p : Char → Bool} {l : List Char}
    (h : ∀ c ∈ l, p c = false) : headOk p l = true := by
  cases l with
  | nil => rfl
  | cons d ds => simp [headOk, h d (by simp)]

theorem headOk_of_append {p : Char → Bool} {cs t : List Char}
    (h : headOk p (cs ++ t) = true) : headOk p cs = true := by
  cases cs with
  | nil => rfl
  | cons d ds => simpa [headOk] using h

theorem runFree_collapseAux {p : Char → Bool} {r : Char}
    (l : List Char) (flag : Bool) : runFree p r (collapseAux p r flag l) = true := by
  induction l generalizing flag with
  | nil => rfl
  | cons c cs ih =>
    by_cases hc : p c = true
    · cases flag with
      | true => simpa [collapseAux, hc] using ih true
      | false =>
        simp only [collapseAux, hc, if_true]
        refine runFree_cons_of_parts ?_ (ih true)
        rcases hcs : collapseAux p r true cs with _ | ⟨d, ds⟩
        · simp [headOk]
        · have hd : p d = false := collapseAux_true_head cs d ds hcs
          simp [headOk, hd]
    · simp only [collapseAux, hc]
      simp only [Bool.false_eq_true, if_false]
      exact runFree_cons_of_parts (by simp [hc]) (ih false)

theorem collapseAux_true_eq_false {p : Char → Bool} {r : Char} (l : List Char)
    (h : headOk p l = true) :
    collapseAux p r true l = collapseAux p r false l := by
  cases l with
  | nil => rfl
  | cons d ds =>
    have hd : p d = false := by simpa [headOk] using h
    simp [collapseAux, hd]

theorem runFree_tail {p : Char → Bool} {r c : Char} {cs : List Char}
    (h : runFree p r (c :: cs) = true) : runFree p r cs = true := by
  rw [runFree_cons] at h
  exact (Bool.and_eq_true_iff.mp h).2

theorem runFree_head_cond {p : Char → Bool} {r c : Char} {cs : List Char}
    (h : runFree p r (c :: cs) = true) (hc : p c = true) :
    c = r ∧ headOk p cs = true := by
  rw [runFree_cons] at h
  have h1 := (Bool.and_eq_true_iff.mp h).1
  simp only [hc, Bool.not_true, Bool.false_or, Bool.and_eq_true_iff, beq_iff_eq] at h1
  exact h1

theorem collapseAux_of_runFree {p : Char → Bool} {r : Char} :
    ∀ (l : List Char), runFree p r l = true → collapseAux p r false l = l := by
  intro l
  induction l with
  | nil => intro _; rfl
  | cons c cs ih =>
    intro h
    have hcs := runFree_tail h
    by_cases hc : p c = true
    · obtain ⟨hcr, h2⟩ := runFree_head_cond h hc
      have heq : collapseAux p r true cs = collapseAux p r false cs :=
        collapseAux_true_eq_false cs h2
      simp [collapseAux, hc, heq, ih hcs, hcr]
    · simp [collapseAux, hc, ih hcs]

theorem runFree_append_left {p : Char → Bool} {r : Char} :
    ∀ (l t : List Char), runFree p r (l ++ t) = true → runFree p r l = true := by
  intro l
  induction l with
  | nil => intro t _; rfl
  | cons c cs ih =>
    intro t h
    rw [List.cons_append] at h
    refine runFree_cons_of_parts ?_ (ih t (runFree_tail h))
    rw [runFree_cons] at h
    have h1 := (Bool.and_eq_true_iff.mp h).1
    rcases Bool.or_eq_true_iff.mp h1 with h2 | h2
    · simp [h2]
    · have h3 := Bool.and_eq_true_iff.mp h2
      simp [h3.1, headOk_of_append h3.2]

theorem runFree_append_right {p : Char → Bool} {r : Char} :
    ∀ (t l : List Char), runFree p r (t ++ l) = true → runFree p r l = true := by
  intro t
  induction t with
  | nil => intro l h; simpa using h
  | cons c cs ih => intro l h; exact ih l (runFree_tail (by simpa using h))

theorem runFree_mem {p : Char → Bool} {r : Char} :
    ∀ (l : List Char), runFree p r l = true → ∀ c ∈ l, p c = true → c = r := by
  intro l
  induction l with
  | nil => intro _ c hc; simp at hc
  | cons d ds ih =>
    intro h c hc hpc
    rcases List.mem_cons.mp hc with rfl | hc
    · exact (runFree_head_cond h hpc).1
    · exact ih (runFree_tail h) c hc hpc

theorem trimChars_prefix_dropWhile (l : List Char) :
    trimChars l <+: l.dropWhile isJsWs := by
  show ((l.dropWhile isJsWs).reverse.dropWhile isJsWs).reverse <+: l.dropWhile isJsWs
  have h : ((l.dropWhile isJsWs).reverse.dropWhile isJsWs) <:+ (l.dropWhile isJsWs).reverse :=
    List.dropWhile_suffix isJsWs
  have h2 := List.reverse_prefix.mpr h
  simpa using h2

theorem trimChars_sublist (l : List Char) : List.Sublist (trimChars l) l :=
  ((trimChars_prefix_dropWhile l).sublist).trans (List.dropWhile_suffix isJsWs).sublist

theorem runFree_of_prefix {p : Char → Bool} {r : Char} {l₁ l₂ : List Char}
    (h : l₁ <+: l₂) (hf : runFree p r l₂ = true) : runFree p r l₁ = true := by
  obtain ⟨t, rfl⟩ := h
  exact runFree_append_left l₁ t hf

theorem runFree_trimChars {l : List Char} (hf : runFree isJsWs ' ' l = true) :
    runFree isJsWs ' ' (trimChars l) = true := by
  refine runFree_of_prefix (trimChars_prefix_dropWhile l) ?_
  obtain ⟨t, ht⟩ : (l.dropWhile isJsWs) <:+ l := List.dropWhile_suffix isJsWs
  exact runFree_append_right t _ (by rw [ht]; exact hf)

theorem isJsWs_barToI (c : Char) : isJsWs (barToI c) = isJsWs c := by
  by_cases h : c = '|'
  · subst h; decide
  · simp [barToI, h]

theorem headOk_map_barToI {cs : List Char} (h : headOk isJsWs cs = true) :
    headOk isJsWs (cs.map barToI) = true := by
  cases cs with
  | nil => rfl
  | cons d ds => simpa [headOk, isJsWs_barToI] using h

theorem runFree_map_barToI {l : List Char} (h : runFree isJsWs ' ' l = true) :
    runFree isJsWs ' ' (l.map barToI) = true := by
  induction l with
  | nil => rfl
  | cons c cs ih =>
    have hcs := ih (runFree_tail h)
    rw [List.map_cons]
    refine runFree_cons_of_parts ?_ hcs
    by_cases hc : isJsWs c = true
    · obtain ⟨hcr, h2⟩ := runFree_head_cond h hc
      subst hcr
      have hb : barToI ' ' = ' ' := by decide
      rw [hb]
      simp [headOk_map_barToI h2]
    · simp [isJsWs_barToI, hc]

theorem map_barToI_eq_self {l : List Char} (h : ∀ c ∈ l, c ≠ '|') :
    l.map barToI = l := by
  induction l with
  | nil => rfl
  | cons c cs ih =>
    have : barToI c = c := by simp [barToI, h c (by simp)]
    simp [this, ih (fun d hd => h d (by simp [hd]))]

theorem barToI_ne_bar (c : Char) : barToI c ≠ '|' := by
  by_cases h : c = '|'
  · subst h; decide
  · simp only [barToI, h, if_false]; exact h

theorem dropWhile_eq_self_of_head {q : Char → Bool} {l : List Char}
    (h : match l with | [] => True | c :: _ => q c = false) :
    l.dropWhile q = l := by
  cases l with
  | nil => rfl
  | cons c cs => simp_all [List.dropWhile_cons]

theorem trimChars_idempotent (l : List Char) :
    trimChars (trimChars l) = trimChars l := by
  have hstep1 : (trimChars l).dropWhile isJsWs = trimChars l := by
    apply dropWhile_eq_self_of_head
    rcases hm : trimChars l with _ | ⟨c, cs⟩
    · trivial
    · obtain ⟨t, ht⟩ := trimChars_prefix_dropWhile l
      rw [hm] at ht
      have hh := List.head?_dropWhile_not isJsWs l
      rw [← ht] at hh
      simpa using hh
  have h0 : trimChars (trimChars l) =
      (((trimChars l).dropWhile isJsWs).reverse.dropWhile isJsWs).reverse := rfl
  rw [h0, hstep1]
  show ((((l.dropWhile isJsWs).reverse.dropWhile isJsWs).reverse).reverse.dropWhile isJsWs).reverse
      = trimChars l
  rw [List.reverse_reverse, List.dropWhile_idempotent]
  rfl

theorem runFree_no_newline {l : List Char} (hf : runFree isJsWs ' ' l = true) :
    ∀ c ∈ l, (c == '\n') = false := by
  intro c hc
  by_cases h : c = '\n'
  · subst h
    have := runFree_mem l hf '\n' hc (by decide)
    simp at this
  · simpa using h

/-- C5 helper: the normalized text is whitespace-collapsed. -/
theorem runFree_normalizeText (l : List Char) :
    runFree isJsWs ' ' (normalizeText l) = true := by
  unfold normalizeText
  apply runFree_trimChars
  apply runFree_map_barToI
  exact runFree_collapseAux _ false

/-- C5 helper: the normalized text contains no vertical bar. -/
theorem normalizeText_no_bar (l : List Char) :
    ∀ c ∈ normalizeText l, c ≠ '|' := by
  intro c hc
  unfold normalizeText at hc
  have hc2 := (trimChars_sublist _).mem hc
  obtain ⟨d, -, rfl⟩ := List.mem_map.mp hc2
  exact barToI_ne_bar d

/-- C5: the text normalizer is idempotent: normalizing an already-normalized
string yields the same string. (`ocr-working.ts` lines 35-39.) -/
theorem normalizeText_idempotent (l : List Char) :
    normalizeText (normalizeText l) = normalizeText l := by
  have hrf : runFree isJsWs ' ' (normalizeText l) = true := runFree_normalizeText l
  have hnb : ∀ c ∈ normalizeText l, c ≠ '|' := normalizeText_no_bar l
  have h1 : collapseRuns (· == '\n') ' ' (normalizeText l) = normalizeText l :=
    collapseAux_eq_self _ (fun c hc => runFree_no_newline hrf c hc) false
  have h2 : collapseRuns isJsWs ' ' (normalizeText l) = normalizeText l :=
    collapseAux_of_runFree _ hrf
  have h3 : List.map barToI (normalizeText l) = normalizeText l :=
    map_barToI_eq_self hnb
  have h4 : trimChars (normalizeText l) = normalizeText l := by
    show trimChars (trimChars (List.map barToI (collapseRuns isJsWs ' '
      (collapseRuns (· == '\n') ' ' l)))) = normalizeText l
    rw [trimChars_idempotent]
    rfl
  show trimChars (List.map barToI (collapseRuns isJsWs ' '
    (collapseRuns (· == '\n') ' ' (normalizeText l)))) = normalizeText l
  rw [h1, h2, h3, h4]

theorem length_takeWhile_le_mls (P : Char → Bool) (l : List Char) :
    (l.takeWhile P).length ≤ l.length :=
  (List.takeWhile_prefix P).length_le

theorem length_takeWhile_eq {P : Char → Bool} :
    ∀ (l : List Char) (d : Nat), d ≤ l.length →
      (∀ m, m < d → ∀ (hm : m < l.length), P (l.get ⟨m, hm⟩) = true) →
      (∀ (hd : d < l.length), P (l.get ⟨d, hd⟩) = false) →
      (l.takeWhile P).length = d := by
  intro l
  induction l with
  | nil =>
    intro d hd _ _
    have : d = 0 := Nat.le_zero.mp (by simpa using hd)
    simp [this]
  | cons c cs ih =>
    intro d hd h1 h2
    cases d with
    | zero =>
      have hc : P c = false := h2 (by simp)
      simp [List.takeWhile_cons, hc]
    | succ d =>
      have hc : P c = true := h1 0 (Nat.succ_pos d) (by simp)
      simp only [List.takeWhile_cons, hc, if_true, List.length_cons, Nat.succ_eq_add_one]
      have := ih d (by simpa using hd)
        (fun m hm hmlen => h1 (m + 1) (by omega) (by simpa using Nat.succ_lt_succ hmlen))
        (fun hdlen => h2 (by simpa using Nat.succ_lt_succ hdlen))
      omega

theorem takeWhile_get_sat (P : Char → Bool) (l : List Char) (m : Nat)
    (hm : m < (l.takeWhile P).length) :
    P (l.get ⟨m, Nat.lt_of_lt_of_le hm (length_takeWhile_le_mls P l)⟩) = true := by
  have hpre : l.takeWhile P <+: l := List.takeWhile_prefix P
  have htake := List.prefix_iff_eq_take.mp hpre
  have hmem : (l.takeWhile P).get ⟨m, hm⟩ ∈ l.takeWhile P := List.get_mem _ _ _
  have hP := List.mem_takeWhile_imp hmem
  have heq : (l.takeWhile P).get ⟨m, hm⟩ =
      l.get ⟨m, Nat.lt_of_lt_of_le hm (length_takeWhile_le_mls P l)⟩ := by
    rw [List.get_eq_getElem, List.get_eq_getElem]
    rw [List.getElem_of_eq htake]
    simp
  rwa [heq] at hP

theorem isWordChar_of_isDigit {c : Char} (h : c.isDigit = true) :
    isWordChar c = true := by
  simp [isWordChar, h]

/-- The executable token matcher agrees with the spec-level `TokenSpec`. -/
theorem qidTokenAt_isSome_iff (t : List Char) (j : Nat) (hj : j < t.length) :
    (qidTokenAt (t.drop j)).isSome = true ↔ TokenSpec t j := by
  rw [List.drop_eq_getElem_cons hj]
  rw [qidTokenAt]
  constructor
  · intro hsome
    by_cases hL : (t[j] == 'Q' || t[j] == 'q' || t[j] == 'E' || t[j] == 'e') = true
    swap
    · rw [if_neg hL] at hsome; simp at hsome
    rw [if_pos hL] at hsome
    simp only at hsome
    set cs := t.drop (j + 1) with hcs
    set dl := (cs.takeWhile Char.isDigit).length with hdl
    by_cases hcond : (decide (2 ≤ dl) && decide (dl ≤ 4) && headOk isWordChar (cs.drop dl)) = true
    swap
    · rw [if_neg hcond] at hsome; simp at hsome
    have hdlen : dl ≤ cs.length := length_takeWhile_le_mls _ _
    have hcslen : cs.length = t.length - (j + 1) := by simp [hcs]
    simp only [Bool.and_eq_true, decide_eq_true_eq] at hcond
    constructor
    · refine ⟨hj, ?_⟩
      rw [List.get_eq_getElem]
      simpa [beq_iff_eq, or_assoc] using hL
    refine ⟨dl, hcond.1.1, hcond.1.2, by omega, ?_, ?_⟩
    · intro m hm
      have hmlen : j + 1 + m < t.length := by omega
      refine ⟨hmlen, ?_⟩
      have hsat := takeWhile_get_sat Char.isDigit cs m (by omega)
      rw [List.get_eq_getElem] at hsat ⊢
      simp only [hcs] at hsat
      simpa [List.getElem_drop] using hsat
    · have hb := hcond.2
      rcases hrest : cs.drop dl with _ | ⟨e, es⟩
      · left
        have hlen0 : cs.length - dl = 0 := by
          have := congrArg List.length hrest
          simpa using this
        omega
      · right
        have hlt : dl < cs.length := by
          by_contra hge
          rw [List.drop_of_length_le (by omega)] at hrest
          exact absurd hrest (by simp)
        refine ⟨by omega, ?_⟩
        have hcons := List.drop_eq_getElem_cons hlt
        rw [hrest] at hcons
        have he : e = cs[dl] := (List.cons.inj hcons.symm).1.symm
        rw [hrest] at hb
        simp only [headOk, Bool.not_eq_eq_eq_not, Bool.not_true] at hb
        rw [List.get_eq_getElem]
        have hgoal : t[j + 1 + dl] = e := by
          rw [he]
          simp [hcs, List.getElem_drop]
        rw [hgoal]
        simpa using hb
  · rintro ⟨⟨hjlen, hletter⟩, d, hd2, hd4, hdlen, hdig, hbound⟩
    set cs := t.drop (j + 1) with hcs
    have hcslen : cs.length = t.length - (j + 1) := by simp [hcs]
    have hdl : (cs.takeWhile Char.isDigit).length = d := by
      apply length_takeWhile_eq
      · omega
      · intro m hm hmlen
        obtain ⟨hml, hdm⟩ := hdig m hm
        rw [List.get_eq_getElem] at hdm ⊢
        simp only [hcs, List.getElem_drop]
        simpa using hdm
      · intro hdlt
        rcases hbound with hb | ⟨hblen, hbw⟩
        · omega
        · have heq : cs.get ⟨d, hdlt⟩ = t.get ⟨j + 1 + d, hblen⟩ := by
            rw [List.get_eq_getElem, List.get_eq_getElem]
            simp [hcs, List.getElem_drop]
          rw [heq]
          by_contra hnot
          have hdt : (t.get ⟨j + 1 + d, hblen⟩).isDigit = true := by
            revert hnot
            cases (t.get ⟨j + 1 + d, hblen⟩).isDigit <;> simp
          rw [isWordChar_of_isDigit hdt] at hbw
          cases hbw
    have hL : (t[j] == 'Q' || t[j] == 'q' || t[j] == 'E' || t[j] == 'e') = true := by
      rw [List.get_eq_getElem] at hletter
      rcases hletter with h | h | h | h <;> simp [h]
    rw [if_pos hL]
    simp only
    have hhead : headOk isWordChar (cs.drop d) = true := by
      rcases hbound with hb | ⟨hblen, hbw⟩
      · rw [List.drop_of_length_le (by omega)]; rfl
      · have hlt : d < cs.length := by omega
        rw [List.drop_eq_getElem_cons hlt]
        rw [List.get_eq_getElem] at hbw
        have heq2 : cs[d] = t[j + 1 + d] := by
          simp [hcs, List.getElem_drop]
        simp [headOk, heq2, hbw]
    rw [hdl]
    rw [if_pos (by simp [hd2, hd4, hhead])]
    rfl

/-- The scanner finds exactly the leftmost permitted token match at or after
the current position `i` (where `s` is the suffix of `t` at `i` and the flag
tracks whether a match may start at `i`). -/
theorem qidScan_spec :
    ∀ (s t : List Char) (i : Nat) (flag : Bool),
      t.drop i = s →
      (flag = true ↔ Allowed t i) →
      (match qidScan flag s with
       | none => ∀ j, i ≤ j → ¬ (Allowed t j ∧ (qidTokenAt (t.drop j)).isSome = true)
       | some (tok, rest) =>
         ∃ j, i ≤ j ∧ Allowed t j ∧ qidTokenAt (t.drop j) = some tok ∧
           rest = (t.drop j).drop tok.length ∧
           ∀ k, i ≤ k → k < j →
             ¬ (Allowed t k ∧ (qidTokenAt (t.drop k)).isSome = true)) := by
  intro s
  induction s with
  | nil =>
    intro t i flag hdrop hflag
    simp only [qidScan]
    rintro j hij ⟨-, htok⟩
    have hlen : t.length ≤ i := by
      have := congrArg List.length hdrop
      simp only [List.length_drop, List.length_nil] at this
      omega
    rw [List.drop_of_length_le (by omega)] at htok
    simp [qidTokenAt] at htok
  | cons c cs ih =>
    intro t i flag hdrop hflag
    have hi : i < t.length := by
      by_contra hge
      rw [List.drop_of_length_le (by omega)] at hdrop
      exact absurd hdrop (by simp)
    have hcons := List.drop_eq_getElem_cons hi
    rw [hdrop] at hcons
    obtain ⟨hc, hcs⟩ := List.cons.inj hcons
    have hflag2 : (isJsWs c = true) ↔ Allowed t (i + 1) := by
      unfold Allowed
      constructor
      · intro h
        refine Or.inr ⟨Nat.succ_pos i, ⟨by simpa using hi, ?_⟩⟩
        rw [List.get_eq_getElem]
        simp only [Nat.add_sub_cancel]
        rw [← hc]
        exact h
      · rintro (h0 | ⟨-, hlt, hws⟩)
        · omega
        · rw [List.get_eq_getElem] at hws
          simp only [Nat.add_sub_cancel] at hws
          rw [hc]
          exact hws
    have ihres := ih t (i + 1) (isJsWs c) hcs.symm hflag2
    cases flag with
    | false =>
      have hna : ¬ Allowed t i := fun ha => by simpa using hflag.mpr ha
      simp only [qidScan, Bool.false_eq_true, if_false]
      rcases hscan : qidScan (isJsWs c) cs with _ | ⟨tok, rest⟩
      · rw [hscan] at ihres
        intro j hij hcontra
        rcases Nat.eq_or_lt_of_le hij with rfl | hlt
        · exact hna hcontra.1
        · exact ihres j (by omega) hcontra
      · rw [hscan] at ihres
        obtain ⟨j, hij, hall, htok, hrest, hmin⟩ := ihres
        refine ⟨j, by omega, hall, htok, hrest, ?_⟩
        intro k hik hkj hcontra
        rcases Nat.eq_or_lt_of_le hik with rfl | hlt
        · exact hna hcontra.1
        · exact hmin k (by omega) hkj hcontra
    | true =>
      have hA : Allowed t i := hflag.mp rfl
      simp only [qidScan, if_true]
      rcases htok : qidTokenAt (c :: cs) with _ | tok
      · have htok2 : qidTokenAt (t.drop i) = none := by rw [hdrop]; exact htok
        rcases hscan : qidScan (isJsWs c) cs with _ | ⟨tok2, rest2⟩
        · rw [hscan] at ihres
          intro j hij hcontra
          rcases Nat.eq_or_lt_of_le hij with rfl | hlt
          · rw [htok2] at hcontra
            simp at hcontra
          · exact ihres j (by omega) hcontra
        · rw [hscan] at ihres
          obtain ⟨j, hij, hall, htokj, hrest, hmin⟩ := ihres
          refine ⟨j, by omega, hall, htokj, hrest, ?_⟩
          intro k hik hkj hcontra
          rcases Nat.eq_or_lt_of_le hik with rfl | hlt
          · rw [htok2] at hcontra
            simp at hcontra
          · exact hmin k (by omega) hkj hcontra
      · refine ⟨i, Nat.le_refl i, hA, ?_, ?_, ?_⟩
        · rw [hdrop, htok]
        · rw [hdrop]
        · intro k hik hki _
          omega

theorem qidTokenAt_some_shape {c : Char} {cs tok : List Char}
    (h : qidTokenAt (c :: cs) = some tok) :
    tok = c :: cs.takeWhile Char.isDigit := by
  rw [qidTokenAt] at h
  by_cases hL : (c == 'Q' || c == 'q' || c == 'E' || c == 'e') = true
  · rw [if_pos hL] at h
    simp only at h
    by_cases hc : (decide (2 ≤ (cs.takeWhile Char.isDigit).length) &&
        decide ((cs.takeWhile Char.isDigit).length ≤ 4) &&
        headOk isWordChar (cs.drop (cs.takeWhile Char.isDigit).length)) = true
    · rw [if_pos hc] at h
      exact (Option.some.inj h).symm
    · rw [if_neg hc] at h
      cases h
  · rw [if_neg hL] at h
    cases h

/-- C6 (amended): on the clean text, if some index carries a match of
`/(?:^|\s)([QE]\d{2,4})\b/i` then the questionId is the token at the least
such index (original case preserved: the letter and digit characters are taken
from the text itself); otherwise the questionId is `"Q_"` followed by the
filename with the FIRST occurrence of `".png"` removed — not, as the claim
stated, with a trailing `".png"` extension stripped. -/
theorem questionId_first_match_spec (t f : List Char) :
    ((∀ j, ¬ QidMatchAt t j) ∧ questionIdOf t f = 'Q' :: '_' :: removeFirstPng f) ∨
    (∃ j, QidMatchAt t j ∧ (∀ i, i < j → ¬ QidMatchAt t i) ∧
      ∃ h : j < t.length,
        questionIdOf t f = t.get ⟨j, h⟩ :: (t.drop (j + 1)).takeWhile Char.isDigit) := by
  have hspec := qidScan_spec t t 0 true (by simp)
    ⟨fun _ => Or.inl rfl, fun _ => rfl⟩
  rcases hq : qidScan true t with _ | ⟨tok, rest⟩
  · rw [hq] at hspec
    left
    constructor
    · rintro j ⟨hall, htokspec⟩
      obtain ⟨hjlen, -⟩ := htokspec.1
      exact hspec j (Nat.zero_le j)
        ⟨hall, (qidTokenAt_isSome_iff t j hjlen).mpr htokspec⟩
    · unfold questionIdOf findQid
      rw [hq]
      rfl
  · rw [hq] at hspec
    right
    obtain ⟨j, -, hall, htokj, -, hmin⟩ := hspec
    have hjlen : j < t.length := by
      by_contra hge
      rw [List.drop_of_length_le (by omega)] at htokj
      simp [qidTokenAt] at htokj
    refine ⟨j, ⟨hall, (qidTokenAt_isSome_iff t j hjlen).mp (by simp [htokj])⟩,
      ?_, hjlen, ?_⟩
    · rintro i hij ⟨halli, htoki⟩
      obtain ⟨hilen, -⟩ := htoki.1
      exact hmin i (Nat.zero_le i) hij
        ⟨halli, (qidTokenAt_isSome_iff t i hilen).mpr htoki⟩
    · have hshape : tok = t[j] :: (t.drop (j + 1)).takeWhile Char.isDigit := by
        have hcons := List.drop_eq_getElem_cons hjlen
        rw [hcons] at htokj
        exact qidTokenAt_some_shape htokj
      have hqid : questionIdOf t f = tok := by
        unfold questionIdOf findQid
        rw [hq]
        rfl
      rw [hqid, List.get_eq_getElem]

      exact hshape

/-- C6 counterexample: for a text with no id token and the filename
`"x.pngy.png"`, the code removes the FIRST `".png"` occurrence, producing
`"Q_xy.png"`, while the claim's trailing-extension stripping would produce
`"Q_x.pngy"`. -/
theorem questionId_png_cex :
    (parseMCQFromText [] (String.toList "x.pngy.png")).map MCQQuestion.questionId =
      some (String.toList "Q_xy.png") ∧
    'Q' :: '_' :: stripTrailingPng (String.toList "x.pngy.png") ≠
      String.toList "Q_xy.png" := by
  constructor
  · decide
  · decide

/-- C8: the parser returns a (non-null) Question for every input, regardless
of how short the body is or how few options were found: in this embedding all
string operations are total, so no exception path exists and the result is
always `some` (a `none`, mirroring `null`, could only come from an exception
inside the `try` block). -/
theorem parseMCQFromText_total (text filename : List Char) :
    ∃ q : MCQQuestion, parseMCQFromText text filename = some q ∧
      q.filename = filename ∧ q.rawText = text :=
  ⟨_, rfl, rfl, rfl⟩

/-- C1 counterexample: on the literal schema text `"(A) foo (B) bar (C) baz
(D) qux"` the labeled pass does NOT produce the four claimed options; in fact
it produces none at all (each candidate cleans to a string of length at most
5 and is discarded by the `length > 5` filter). -/
theorem labeledOptions_schema_cex :
    labeledOptions (String.toList "(A) foo (B) bar (C) baz (D) qux") ≠
      [⟨'A', String.toList "foo"⟩, ⟨'B', String.toList "bar"⟩,
       ⟨'C', String.toList "baz"⟩, ⟨'D', String.toList "qux"⟩] := by
  decide

/-- C1 (amended): on a text of the shape `"(A) foo (B) bar (C) baz (D) qux"`
the labeled pass produces an option for a letter only when the cleaned
candidate is longer than 5 characters; with the literal 3-letter texts it
produces no options at all, and with longer texts it produces 4 options with
ids A,B,C,D in order whose texts for A, B, C carry a trailing `" ("` fragment
captured from the next label by the third (unanchored) pattern, with only D's
text equal to its labeled text. -/
theorem labeledOptions_schema_amended :
    labeledOptions (String.toList "(A) foo (B) bar (C) baz (D) qux") = [] ∧
    labeledOptions (String.toList "(A) alphaaa (B) bravooo (C) charlie (D) deltaaa") =
      [⟨'A', String.toList "alphaaa ("⟩, ⟨'B', String.toList "bravooo ("⟩,
       ⟨'C', String.toList "charlie ("⟩, ⟨'D', String.toList "deltaaa"⟩] := by
  constructor
  · decide
  · decide

/-- Unfolding helper: the question field of the parse result. -/
theorem parse_question_eq (text filename : List Char) :
    (parseMCQFromText text filename).map MCQQuestion.question =
      some (extractQuestionText (textAfterQid (normalizeText text))) := by
  rw [parseMCQFromText]
  rw [Option.map_some']

/-- Unfolding helper: the options field of the parse result. -/
theorem parse_options_eq (text filename : List Char) :
    (parseMCQFromText text filename).map MCQQuestion.options =
      some (finalOptionsOf (normalizeText text)) := by
  rw [parseMCQFromText]
  rw [Option.map_some']

/-- Unfolding helper: the questionId field of the parse result. -/
theorem parse_questionId_eq (text filename : List Char) :
    (parseMCQFromText text filename).map MCQQuestion.questionId =
      some (questionIdOf (normalizeText text) filename) := by
  rw [parseMCQFromText]
  rw [Option.map_some']

/-- Unfolding helper: the question field of the variant parse result. -/
theorem variant_question_eq (text filename : List Char) :
    (parseMCQVariant text filename).map MCQQuestion.question =
      some (variantQText (normalizeText text)) := by
  rw [parseMCQVariant]
  rw [Option.map_some']

/-- Unfolding helper: the options field of the variant parse result. -/
theorem variant_options_eq (text filename : List Char) :
    (parseMCQVariant text filename).map MCQQuestion.options =
      some (variantFinalOptionsOf (normalizeText text)) := by
  rw [parseMCQVariant]
  rw [Option.map_some']

/-- Unfolding helper: the questionId field of the variant parse result. -/
theorem variant_questionId_eq (text filename : List Char) :
    (parseMCQVariant text filename).map MCQQuestion.questionId =
      some (questionIdOf (normalizeText text) filename) := by
  rw [parseMCQVariant]
  rw [Option.map_some']

theorem lastQmarkSplit_eq_none {l : List Char} (h : '?' ∉ l) :
    lastQmarkSplit l = none := by
  induction l with
  | nil => rfl
  | cons c cs ih =>
    have hc : c ≠ '?' := fun hc => h (hc ▸ List.mem_cons_self c cs)
    have hcs : '?' ∉ cs := fun hm => h (List.mem_cons_of_mem c hm)
    simp [lastQmarkSplit, ih hcs, hc]

theorem lastQmarkSplit_eq_take :
    ∀ (t : List Char) (k : Nat) (hk : k < t.length),
      t.get ⟨k, hk⟩ = '?' → '?' ∉ t.drop (k + 1) →
      lastQmarkSplit t = some (t.take (k + 1)) := by
  intro t
  induction t with
  | nil => intro k hk; simp at hk
  | cons c cs ih =>
    intro k hk hq hafter
    cases k with
    | zero =>
      have hc : c = '?' := by simpa using hq
      have hcs : lastQmarkSplit cs = none := lastQmarkSplit_eq_none (by simpa using hafter)
      simp [lastQmarkSplit, hcs, hc]
    | succ k =>
      have hklen : k < cs.length := by simpa using hk
      have hq2 : cs.get ⟨k, hklen⟩ = '?' := by simpa using hq
      have hafter2 : '?' ∉ cs.drop (k + 1) := by simpa using hafter
      have := ih k hklen hq2 hafter2
      simp [lastQmarkSplit, this]

theorem mem_dropWhile_of_not {q : Char → Bool} {c : Char} :
    ∀ {l : List Char}, c ∈ l → q c = false → c ∈ l.dropWhile q := by
  intro l
  induction l with
  | nil => intro h _; simp at h
  | cons d ds ih =>
    intro hm hqc
    rw [List.dropWhile_cons]
    by_cases hd : q d = true
    · rw [if_pos hd]
      rcases List.mem_cons.mp hm with rfl | hm2
      · rw [hqc] at hd; cases hd
      · exact ih hm2 hqc
    · rw [if_neg hd]
      exact hm

theorem trimChars_ne_nil_of_mem {l : List Char} {c : Char}
    (hm : c ∈ l) (hc : isJsWs c = false) : trimChars l ≠ [] := by
  intro hemp
  have h1 : (l.dropWhile isJsWs).reverse.dropWhile isJsWs = [] :=
    List.reverse_eq_nil_iff.mp hemp
  have h2 : c ∈ (l.dropWhile isJsWs).reverse := by
    simpa using mem_dropWhile_of_not hm hc
  have h3 : c ∈ (l.dropWhile isJsWs).reverse.dropWhile isJsWs :=
    mem_dropWhile_of_not h2 hc
  rw [h1] at h3
  simp at h3

/-- C3 (amended): when the boundary strategy yields nothing usable (trimmed
prefix of length at most 50), the question-mark fallback sets the body to the
LONGEST prefix of the remaining text ending at the LAST question mark — the
regex `/(.*\?)/s` has a greedy dotall `.*` — not the shortest prefix ending at
the first one. -/
theorem questionMark_fallback_amended (t : List Char) (k : Nat)
    (hb : (trimChars (beforeOptionsSplit t)).length ≤ 50)
    (hk : k < t.length) (hq : t.get ⟨k, hk⟩ = '?')
    (hafter : '?' ∉ t.drop (k + 1)) :
    extractQuestionText t = questionCleanup (trimChars (t.take (k + 1))) := by
  have hlast := lastQmarkSplit_eq_take t k hk hq hafter
  have h1 : ¬ 50 < (trimChars (beforeOptionsSplit t)).length := by omega
  have hmem : '?' ∈ t.take (k + 1) := by
    have hlen : k < (t.take (k + 1)).length := by
      simp only [List.length_take]
      omega
    have hget : (t.take (k + 1)).get ⟨k, hlen⟩ = '?' := by
      rw [List.get_eq_getElem, List.getElem_take]
      rw [List.get_eq_getElem] at hq
      exact hq
    exact hget ▸ List.get_mem _ _ _
  have hne : trimChars (t.take (k + 1)) ≠ [] :=
    trimChars_ne_nil_of_mem hmem (by decide)
  simp only [extractQuestionText, hlast, if_neg h1, if_true]
  rw [if_neg hne]

/-- C3 counterexample: on a remaining text with two question marks where the
boundary strategy fails, the fallback keeps everything through the LAST
question mark, not the shortest prefix ending at the first one. -/
theorem questionMark_fallback_cex :
    extractQuestionText (String.toList "Is it the xx? Or is it the yy?") =
      String.toList "Is it the xx? Or is it the yy?" ∧
    String.toList "Is it the xx? Or is it the yy?" ≠
      String.toList "Is it the xx?" := by
  constructor
  · decide
  · decide

/-- C3 witness: the amended theorem applied to the two-question-mark text with
the last mark at index 29. -/
theorem questionMark_fallback_amended_w :
    extractQuestionText (String.toList "Is it the xx? Or is it the yy?") =
      questionCleanup (trimChars
        ((String.toList "Is it the xx? Or is it the yy?").take 30)) :=
  questionMark_fallback_amended (String.toList "Is it the xx? Or is it the yy?") 29
    (by decide) (by decide) (by decide) (by decide)

theorem beforeOptionsSplit_length_le (l : List Char) :
    (beforeOptionsSplit l).length ≤ l.length := by
  induction l with
  | nil => simp [beforeOptionsSplit]
  | cons c cs ih =>
    rw [beforeOptionsSplit]
    by_cases hbl : boundaryLook (c :: cs) = true
    · rw [if_pos hbl]; simp
    · rw [if_neg hbl]; simpa using ih

theorem trimChars_length_le (l : List Char) : (trimChars l).length ≤ l.length :=
  (trimChars_sublist l).length_le

/-- C4 (amended): the fallback chain does NOT guarantee a non-empty body:
whenever the remaining text after the question id is at most 50 characters
long and contains no question mark, all three strategies reject (the first and
third require a result longer than 50 characters and the second a question
mark), and the returned body is empty. -/
theorem question_body_can_be_empty (text filename : List Char)
    (hlen : (textAfterQid (normalizeText text)).length ≤ 50)
    (hq : '?' ∉ textAfterQid (normalizeText text)) :
    (parseMCQFromText text filename).map MCQQuestion.question = some [] := by
  have key : extractQuestionText (textAfterQid (normalizeText text)) = [] := by
    set ta := textAfterQid (normalizeText text) with hta
    have h1 : ¬ 50 < (trimChars (beforeOptionsSplit ta)).length := by
      have ht1 := trimChars_length_le (beforeOptionsSplit ta)
      have ht2 := beforeOptionsSplit_length_le ta
      omega
    have h2 : lastQmarkSplit ta = none := lastQmarkSplit_eq_none hq
    have h3 : ¬ 50 < (trimChars (ta.take 500)).length := by
      have ht1 := trimChars_length_le (ta.take 500)
      have ht2 : (ta.take 500).length ≤ ta.length := by
        simp only [List.length_take]
        omega
      omega
    simp only [extractQuestionText, h2, if_neg h1, if_neg h3]
    rfl
  rw [parse_question_eq, key]

/-- C4 counterexample: the input `"hi"` yields a Question whose body is the
empty string: the fallback chain left the body empty. -/
theorem question_body_empty_cex :
    (parseMCQFromText (String.toList "hi") (String.toList "f.png")).map
      MCQQuestion.question = some [] := by
  decide

/-- C4 witness: the amended theorem applied to the input `"hi"`. -/
theorem question_body_can_be_empty_w :
    (parseMCQFromText (String.toList "hi") (String.toList "a.png")).map
      MCQQuestion.question = some [] :=
  question_body_can_be_empty (String.toList "hi") (String.toList "a.png")
    (by decide) (by decide)

theorem pickBest_ge_acc :
    ∀ (ms : List (Option (List Char))) (acc : List Char),
      acc.length ≤ (pickBest acc ms).length := by
  intro ms
  induction ms with
  | nil => intro acc; simp [pickBest]
  | cons m ms ih =>
    intro acc
    cases m with
    | none => simpa [pickBest] using ih acc
    | some s =>
      rw [pickBest]
      by_cases hemp : s.isEmpty = true
      · rw [if_pos hemp]; exact ih acc
      · rw [if_neg hemp]
        by_cases hlt : acc.length < (trimChars s).length
        · rw [if_pos hlt]
          exact Nat.le_trans (Nat.le_of_lt hlt) (ih (trimChars s))
        · rw [if_neg hlt]; exact ih acc

theorem pickBest_ge :
    ∀ (ms : List (Option (List Char))) (acc : List Char) (s : List Char),
      some s ∈ ms → s ≠ [] →
      (trimChars s).length ≤ (pickBest acc ms).length := by
  intro ms
  induction ms with
  | nil => intro acc s hmem; simp at hmem
  | cons m ms ih =>
    intro acc s hmem hne
    rcases List.mem_cons.mp hmem with heq | hmem2
    · subst heq
      rw [pickBest]
      have hemp : s.isEmpty = false := by
        cases s with
        | nil => exact absurd rfl hne
        | cons a as => rfl
      rw [hemp]
      simp only [Bool.false_eq_true, if_false]
      by_cases hlt : acc.length < (trimChars s).length
      · rw [if_pos hlt]
        exact pickBest_ge_acc ms (trimChars s)
      · rw [if_neg hlt]
        exact Nat.le_trans (Nat.le_of_not_lt hlt) (pickBest_ge_acc ms acc)
    · cases m with
      | none => simpa [pickBest] using ih acc s hmem2 hne
      | some s2 =>
        rw [pickBest]
        by_cases hemp : s2.isEmpty = true
        · rw [if_pos hemp]; exact ih acc s hmem2 hne
        · rw [if_neg hemp]
          by_cases hlt : acc.length < (trimChars s2).length
          · rw [if_pos hlt]; exact ih (trimChars s2) s hmem2 hne
          · rw [if_neg hlt]; exact ih acc s hmem2 hne

theorem pickBest_mem :
    ∀ (ms : List (Option (List Char))) (acc : List Char),
      pickBest acc ms = acc ∨
      ∃ s, some s ∈ ms ∧ pickBest acc ms = trimChars s := by
  intro ms
  induction ms with
  | nil => intro acc; left; rfl
  | cons m ms ih =>
    intro acc
    cases m with
    | none =>
      rcases ih acc with h | ⟨s, hs, hres⟩
      · left; simpa [pickBest] using h
      · right; exact ⟨s, by simp [hs], by simpa [pickBest] using hres⟩
    | some s2 =>
      rw [pickBest]
      by_cases hemp : s2.isEmpty = true
      · rw [if_pos hemp]
        rcases ih acc with h | ⟨s, hs, hres⟩
        · left; exact h
        · right; exact ⟨s, by simp [hs], hres⟩
      · rw [if_neg hemp]
        by_cases hlt : acc.length < (trimChars s2).length
        · rw [if_pos hlt]
          rcases ih (trimChars s2) with h | ⟨s, hs, hres⟩
          · right; exact ⟨s2, by simp, h⟩
          · right; exact ⟨s, by simp [hs], hres⟩
        · rw [if_neg hlt]
          rcases ih acc with h | ⟨s, hs, hres⟩
          · left; exact h
          · right; exact ⟨s, by simp [hs], hres⟩

theorem optionCleanup_nil : optionCleanup [] = [] := rfl

theorem optionFor_eq_some {t : List Char} {L : Char} {o : MCQOption}
    (h : optionFor t L = some o) :
    o.id = L ∧
    o.text = optionCleanup (pickBest [] [p1Scan L t, p2Scan L t, p3Scan L t]) := by
  unfold optionFor at h
  by_cases hemp : (pickBest [] [p1Scan L t, p2Scan L t, p3Scan L t]).isEmpty = true
  · rw [if_pos hemp] at h; cases h
  · rw [if_neg hemp] at h
    simp only at h
    by_cases hlen : 5 <
        (optionCleanup (pickBest [] [p1Scan L t, p2Scan L t, p3Scan L t])).length
    · rw [if_pos hlen] at h
      obtain rfl := Option.some.inj h
      exact ⟨rfl, rfl⟩
    · rw [if_neg hlen] at h; cases h

theorem optionFor_isSome_iff (t : List Char) (L : Char) :
    (optionFor t L).isSome = true ↔
      5 < (optionCleanup (pickBest [] [p1Scan L t, p2Scan L t, p3Scan L t])).length := by
  unfold optionFor
  by_cases hemp : (pickBest [] [p1Scan L t, p2Scan L t, p3Scan L t]).isEmpty = true
  · rw [if_pos hemp]
    have hnil : pickBest [] [p1Scan L t, p2Scan L t, p3Scan L t] = [] :=
      List.isEmpty_iff.mp hemp
    rw [hnil, optionCleanup_nil]
    simp
  · rw [if_neg hemp]
    simp only
    by_cases hlen : 5 <
        (optionCleanup (pickBest [] [p1Scan L t, p2Scan L t, p3Scan L t])).length
    · rw [if_pos hlen]
      simp [hlen]
    · rw [if_neg hlen]
      simp [hlen]

theorem countP_filterMap_le_one {f : Char → Option MCQOption} :
    ∀ (ls : List Char), (∀ ℓ o, f ℓ = some o → o.id = ℓ) → ls.Nodup →
      ∀ L : Char, ((ls.filterMap f).countP (fun o => o.id == L)) ≤ 1 := by
  intro ls
  induction ls with
  | nil => intro _ _ L; simp
  | cons ℓ ls ih =>
    intro hf hnd L
    have hnd2 := (List.nodup_cons.mp hnd).2
    have hnmem := (List.nodup_cons.mp hnd).1
    rw [List.filterMap_cons]
    cases hfl : f ℓ with
    | none => exact ih hf hnd2 L
    | some o =>
      rw [List.countP_cons]
      have hid : o.id = ℓ := hf ℓ o hfl
      by_cases hL : ℓ = L
      · subst hL
        have hzero : (ls.filterMap f).countP (fun o => o.id == ℓ) = 0 := by
          rw [List.countP_eq_zero]
          intro o2 ho2
          obtain ⟨ℓ2, hℓ2, hfo2⟩ := List.mem_filterMap.mp ho2
          have : o2.id = ℓ2 := hf ℓ2 o2 hfo2
          simp only [this, beq_iff_eq]
          intro heq
          exact hnmem (heq ▸ hℓ2)
        rw [hzero]
        simp [hid]
      · have : (o.id == L) = false := by
          simp only [hid, beq_eq_false_iff_ne]
          exact hL
        rw [this]
        simpa using ih hf hnd2 L

/-- C2: for each letter, the labeled pass selects, among the three pattern
shapes, a candidate whose trimmed captured text is at least as long as every
non-empty candidate (and the selection is one of the trimmed candidates, or
empty when all fail); an option for the letter is added if and only if, after
collapsing whitespace and stripping a leading run of non-letters, the
remaining text is strictly longer than 5 characters; and the pass produces at
most one option per letter. -/
theorem labeled_selection_spec (t : List Char) (L : Char) (hL : L ∈ optionLetters) :
    (∀ s, some s ∈ [p1Scan L t, p2Scan L t, p3Scan L t] → s ≠ [] →
      (trimChars s).length ≤ (pickBest [] [p1Scan L t, p2Scan L t, p3Scan L t]).length) ∧
    (pickBest [] [p1Scan L t, p2Scan L t, p3Scan L t] = [] ∨
      ∃ s, some s ∈ [p1Scan L t, p2Scan L t, p3Scan L t] ∧
        pickBest [] [p1Scan L t, p2Scan L t, p3Scan L t] = trimChars s) ∧
    ((∃ o ∈ labeledOptions t, o.id = L) ↔
      5 < (optionCleanup (pickBest [] [p1Scan L t, p2Scan L t, p3Scan L t])).length) ∧
    (labeledOptions t).countP (fun o => o.id == L) ≤ 1 := by
  refine ⟨fun s hmem hne => pickBest_ge _ [] s hmem hne, pickBest_mem _ [], ?_, ?_⟩
  · constructor
    · rintro ⟨o, homem, hoid⟩
      obtain ⟨ℓ, hℓmem, hfo⟩ := List.mem_filterMap.mp homem
      have hid := (optionFor_eq_some hfo).1
      have hℓL : ℓ = L := by rw [← hid, hoid]
      subst hℓL
      have hsome : (optionFor t ℓ).isSome = true := by simp [hfo]
      exact (optionFor_isSome_iff t ℓ).mp hsome
    · intro hlen
      have hsome := (optionFor_isSome_iff t L).mpr hlen
      obtain ⟨o, ho⟩ := Option.isSome_iff_exists.mp hsome
      refine ⟨o, List.mem_filterMap.mpr ⟨L, hL, ho⟩, (optionFor_eq_some ho).1⟩
  · exact countP_filterMap_le_one optionLetters
      (fun ℓ o h => (optionFor_eq_some h).1) (by decide) L

/-- C2 witness: the selection specification applied to the long schema text
at letter A. -/
theorem labeled_selection_spec_w :
    'A' ∈ optionLetters ∧
    ((∃ o ∈ labeledOptions
        (String.toList "(A) alphaaa (B) bravooo (C) charlie (D) deltaaa"),
        o.id = 'A') ↔
      5 < (optionCleanup (pickBest []
        [p1Scan 'A' (String.toList "(A) alphaaa (B) bravooo (C) charlie (D) deltaaa"),
         p2Scan 'A' (String.toList "(A) alphaaa (B) bravooo (C) charlie (D) deltaaa"),
         p3Scan 'A' (String.toList "(A) alphaaa (B) bravooo (C) charlie (D) deltaaa")])).length) :=
  ⟨by decide,
    (labeled_selection_spec
      (String.toList "(A) alphaaa (B) bravooo (C) charlie (D) deltaaa") 'A'
      (by decide)).2.2.1⟩

theorem labeled_id_mem (ct : List Char) {o : MCQOption} (h : o ∈ labeledOptions ct) :
    o.id ∈ optionLetters := by
  obtain ⟨ℓ, hℓ, hf⟩ := List.mem_filterMap.mp h
  rw [(optionFor_eq_some hf).1]
  exact hℓ

theorem toUpper_fix {L : Char} (h : L ∈ optionLetters) : L.toUpper = L := by
  simp only [optionLetters, List.mem_cons, List.not_mem_nil, or_false] at h
  rcases h with rfl | rfl | rfl | rfl <;> decide

theorem labeled_pairwise_lt (ct : List Char) :
    (labeledOptions ct).Pairwise (fun a b => a.id < b.id) := by
  unfold labeledOptions
  rw [List.pairwise_filterMap]
  have hbase : optionLetters.Pairwise (fun a b => a < b) := by decide
  refine hbase.imp ?_
  intro a b hab o ho o' ho'
  rw [(optionFor_eq_some (Option.mem_def.mp ho)).1,
      (optionFor_eq_some (Option.mem_def.mp ho')).1]
  exact hab

theorem labeled_length_le (ct : List Char) : (labeledOptions ct).length ≤ 4 := by
  have := List.length_filterMap_le (optionFor ct) optionLetters
  simpa [labeledOptions] using this

theorem map_toUpper_eq (ct : List Char) :
    (labeledOptions ct).map (fun o => o.id.toUpper) =
      (labeledOptions ct).map (fun o => o.id) :=
  List.map_congr_left (fun o ho => by rw [toUpper_fix (labeled_id_mem ct ho)])

theorem map_id_zipWith :
    ∀ (ms : List Char) (cs : List (List Char)),
      (List.zipWith (fun L txt => (⟨L, txt⟩ : MCQOption)) ms cs).map (fun o => o.id) =
        ms.take cs.length := by
  intro ms
  induction ms with
  | nil => intro cs; simp
  | cons m ms ih =>
    intro cs
    cases cs with
    | nil => simp
    | cons c cs => simp [ih cs]

theorem filterMap_length_add_countP_le {f : Char → Option MCQOption}
    (q : Char → Bool) :
    ∀ (ls : List Char), (∀ a ∈ ls, (f a).isSome = true → q a = false) →
      (ls.filterMap f).length + ls.countP q ≤ ls.length := by
  intro ls
  induction ls with
  | nil => intro _; simp
  | cons a ls ih =>
    intro hexcl
    have hih := ih (fun b hb => hexcl b (List.mem_cons_of_mem a hb))
    rw [List.filterMap_cons, List.countP_cons]
    cases hfa : f a with
    | none =>
      have : (if q a then 1 else 0) ≤ 1 := by split <;> omega
      simp only [List.length_cons]
      omega
    | some o =>
      have hqa : q a = false := hexcl a (List.mem_cons_self a ls) (by simp [hfa])
      simp only [hqa, List.length_cons, Bool.false_eq_true, if_false]
      omega

theorem found_contains_of_isSome (ct : List Char) {L : Char}
    (hm : L ∈ optionLetters) (hs : (optionFor ct L).isSome = true) :
    ((labeledOptions ct).map (fun o => o.id.toUpper)).contains L = true := by
  obtain ⟨o, ho⟩ := Option.isSome_iff_exists.mp hs
  have hmem : o ∈ labeledOptions ct := List.mem_filterMap.mpr ⟨L, hm, ho⟩
  have hup : o.id.toUpper = L := by rw [(optionFor_eq_some ho).1, toUpper_fix hm]
  have : L ∈ (labeledOptions ct).map (fun o => o.id.toUpper) :=
    List.mem_map.mpr ⟨o, hmem, hup⟩
  exact List.elem_iff.mpr this

theorem not_mem_found_of_missing (ct : List Char) {L : Char}
    (h : L ∈ optionLetters.filter
      (fun L => !(((labeledOptions ct).map (fun o => o.id.toUpper)).contains L))) :
    L ∈ optionLetters ∧ L ∉ (labeledOptions ct).map (fun x => x.id) := by
  obtain ⟨hmem, hflt⟩ := List.mem_filter.mp h
  refine ⟨hmem, fun hcontra => ?_⟩
  rw [← map_toUpper_eq] at hcontra
  have : ((labeledOptions ct).map (fun o => o.id.toUpper)).contains L = true :=
    List.elem_iff.mpr hcontra
  rw [this] at hflt
  cases hflt

theorem sorted_block_spec (ct : List Char) (newOnes : List MCQOption)
    (hnewid : ∀ o ∈ newOnes, o.id ∈ optionLetters ∧
        o.id ∉ (labeledOptions ct).map (fun x => x.id))
    (hnodupnew : (newOnes.map (fun o => o.id)).Nodup)
    (hlen : (labeledOptions ct ++ newOnes).length ≤ 4) :
    (List.insertionSort (fun a b : MCQOption => a.id ≤ b.id)
        (labeledOptions ct ++ newOnes)).length ≤ 4 ∧
    (List.insertionSort (fun a b : MCQOption => a.id ≤ b.id)
        (labeledOptions ct ++ newOnes)).Pairwise (fun a b => a.id < b.id) ∧
    (∀ o ∈ labeledOptions ct, o ∈ List.insertionSort
        (fun a b : MCQOption => a.id ≤ b.id) (labeledOptions ct ++ newOnes)) ∧
    (∀ o ∈ List.insertionSort (fun a b : MCQOption => a.id ≤ b.id)
        (labeledOptions ct ++ newOnes),
      o ∈ labeledOptions ct ∨
        (o.id ∈ optionLetters ∧ o.id ∉ (labeledOptions ct).map (fun x => x.id))) := by
  have hperm := List.perm_insertionSort
    (fun a b : MCQOption => a.id ≤ b.id) (labeledOptions ct ++ newOnes)
  refine ⟨?_, ?_, ?_, ?_⟩
  · rw [hperm.length_eq]
    exact hlen
  · have hsorted : (List.insertionSort (fun a b : MCQOption => a.id ≤ b.id)
        (labeledOptions ct ++ newOnes)).Pairwise (fun a b : MCQOption => a.id ≤ b.id) :=
      List.sorted_insertionSort _ _
    have hnodup : ((labeledOptions ct ++ newOnes).map (fun o => o.id)).Nodup := by
      rw [List.map_append, List.nodup_append]
      refine ⟨?_, hnodupnew, ?_⟩
      · have hlt := List.pairwise_map.mpr (labeled_pairwise_lt ct)
        exact hlt.imp ne_of_lt
      · rw [List.disjoint_right]
        intro a hanew halab
        obtain ⟨o, honew, rfl⟩ := List.mem_map.mp hanew
        exact (hnewid o honew).2 halab
    have hnodup2 : ((List.insertionSort (fun a b : MCQOption => a.id ≤ b.id)
        (labeledOptions ct ++ newOnes)).map (fun o => o.id)).Nodup :=
      (List.Perm.nodup_iff (hperm.map (fun o => o.id))).mpr hnodup
    have hne : (List.insertionSort (fun a b : MCQOption => a.id ≤ b.id)
        (labeledOptions ct ++ newOnes)).Pairwise (fun a b => a.id ≠ b.id) :=
      List.pairwise_map.mp hnodup2
    exact (hsorted.and hne).imp (fun hab => lt_of_le_of_ne hab.1 hab.2)
  · intro o ho
    rw [List.Perm.mem_iff hperm]
    exact List.mem_append_left _ ho
  · intro o ho
    rw [List.Perm.mem_iff hperm] at ho
    rcases List.mem_append.mp ho with h | h
    · exact Or.inl h
    · exact Or.inr (hnewid o h)

theorem missingIdsOf_spec (ct : List Char) {L : Char}
    (h : L ∈ missingIdsOf (labeledOptions ct)) :
    L ∈ optionLetters ∧ L ∉ (labeledOptions ct).map (fun x => x.id) := by
  obtain ⟨hmem, hflt⟩ := List.mem_filter.mp h
  refine ⟨hmem, fun hcontra => ?_⟩
  rw [← map_toUpper_eq] at hcontra
  have hcont : (foundIdsOf (labeledOptions ct)).contains L = true :=
    List.elem_iff.mpr hcontra
  rw [hcont] at hflt
  cases hflt

theorem missingIdsOf_nodup (opts : List MCQOption) : (missingIdsOf opts).Nodup :=
  List.Nodup.filter _ (by decide)

theorem labeled_add_missing_le (ct : List Char) :
    (labeledOptions ct).length + (missingIdsOf (labeledOptions ct)).length ≤ 4 := by
  have hcount : (missingIdsOf (labeledOptions ct)).length =
      optionLetters.countP
        (fun L => !((foundIdsOf (labeledOptions ct)).contains L)) := by
    rw [missingIdsOf, ← List.countP_eq_length_filter]
  have hmain := filterMap_length_add_countP_le
    (fun L => !((foundIdsOf (labeledOptions ct)).contains L)) optionLetters
    (fun a hmem hsome => by
      show (!(foundIdsOf (labeledOptions ct)).contains a) = false
      rw [foundIdsOf, found_contains_of_isSome ct hmem hsome]
      rfl)
  rw [hcount]
  simpa [labeledOptions] using hmain

theorem finalOptionsOf_spec (ct : List Char) :
    (finalOptionsOf ct).length ≤ 4 ∧
    (finalOptionsOf ct).Pairwise (fun a b => a.id < b.id) ∧
    (∀ o ∈ labeledOptions ct, o ∈ finalOptionsOf ct) ∧
    (∀ o ∈ finalOptionsOf ct, o ∈ labeledOptions ct ∨
      (o.id ∈ optionLetters ∧
        o.id ∉ (labeledOptions ct).map (fun x => x.id))) := by
  unfold finalOptionsOf
  by_cases hlt : (labeledOptions ct).length < 4
  swap
  · rw [if_neg hlt]
    exact ⟨labeled_length_le ct, labeled_pairwise_lt ct,
      fun o ho => ho, fun o ho => Or.inl ho⟩
  · rw [if_pos hlt]
    unfold gapAugment
    by_cases hm : (missingIdsOf (labeledOptions ct)).isEmpty = true
    · rw [if_pos hm]
      have hspec := sorted_block_spec ct [] (by simp) (by simp)
        (by rw [List.append_nil]; exact labeled_length_le ct)
      rw [List.append_nil] at hspec
      exact hspec
    · rw [if_neg hm]
      apply sorted_block_spec ct
      · intro o ho
        have hid := List.mem_map_of_mem (fun o : MCQOption => o.id) ho
        rw [map_id_zipWith] at hid
        have hmm : o.id ∈ missingIdsOf (labeledOptions ct) :=
          (List.take_sublist _ _).mem hid
        exact missingIdsOf_spec ct hmm
      · rw [map_id_zipWith]
        exact (List.take_sublist _ _).nodup (missingIdsOf_nodup _)
      · rw [List.length_append, List.length_zipWith]
        have := labeled_add_missing_le ct
        omega

/-- C7: for every input, the options list of the returned Question has length
at most 4, and is strictly sorted ascending by id after all extraction passes
(which also gives at most one option per id). -/
theorem options_invariant (text filename : List Char) (opts : List MCQOption)
    (h : (parseMCQFromText text filename).map MCQQuestion.options = some opts) :
    opts.length ≤ 4 ∧ opts.Pairwise (fun a b => a.id < b.id) := by
  rw [parse_options_eq] at h
  obtain rfl := Option.some.inj h
  exact ⟨(finalOptionsOf_spec _).1, (finalOptionsOf_spec _).2.1⟩

/-- C7 witness: the invariant applied to a concrete parse. -/
theorem options_invariant_w :
    (finalOptionsOf (normalizeText (String.toList "hi"))).length ≤ 4 ∧
    (finalOptionsOf (normalizeText (String.toList "hi"))).Pairwise
      (fun a b => a.id < b.id) :=
  options_invariant (String.toList "hi") (String.toList "f.png") _
    (parse_options_eq (String.toList "hi") (String.toList "f.png"))

/-- C10: every option produced by the labeled pass appears unchanged (same id
and text, as the same record) in the final options list, and every final
option either comes from the labeled pass or carries a letter id that the
labeled pass did not produce: the gap-inference fallback only adds options for
missing letters and never modifies or removes a labeled option. -/
theorem gap_frame (text filename : List Char) (opts : List MCQOption)
    (h : (parseMCQFromText text filename).map MCQQuestion.options = some opts) :
    (∀ o ∈ labeledOptions (normalizeText text), o ∈ opts) ∧
    (∀ o ∈ opts, o ∈ labeledOptions (normalizeText text) ∨
      (o.id ∈ optionLetters ∧
        o.id ∉ (labeledOptions (normalizeText text)).map (fun x => x.id))) := by
  rw [parse_options_eq] at h
  obtain rfl := Option.some.inj h
  exact ⟨(finalOptionsOf_spec _).2.2.1, (finalOptionsOf_spec _).2.2.2⟩

/-- C10 witness: a concrete labeled option survives unchanged into the final
options of a concrete parse. -/
theorem gap_frame_w :
    (⟨'A', String.toList "alphaaa ("⟩ : MCQOption) ∈
      finalOptionsOf (normalizeText
        (String.toList "(A) alphaaa (B) bravooo (C) charlie (D) deltaaa")) :=
  (gap_frame (String.toList "(A) alphaaa (B) bravooo (C) charlie (D) deltaaa")
      (String.toList "s.png") _
      (parse_options_eq
        (String.toList "(A) alphaaa (B) bravooo (C) charlie (D) deltaaa")
        (String.toList "s.png"))).1
    ⟨'A', String.toList "alphaaa ("⟩ (by decide)

/-- Unfolding helper: the filename field of the parse result. -/
theorem parse_filename_eq (text filename : List Char) :
    (parseMCQFromText text filename).map MCQQuestion.filename = some filename := by
  rw [parseMCQFromText]
  rw [Option.map_some']

/-- Unfolding helper: the rawText field of the parse result. -/
theorem parse_rawText_eq (text filename : List Char) :
    (parseMCQFromText text filename).map MCQQuestion.rawText = some text := by
  rw [parseMCQFromText]
  rw [Option.map_some']

/-- Unfolding helper: the filename field of the variant parse result. -/
theorem variant_filename_eq (text filename : List Char) :
    (parseMCQVariant text filename).map MCQQuestion.filename = some filename := by
  rw [parseMCQVariant]
  rw [Option.map_some']

/-- Unfolding helper: the rawText field of the variant parse result. -/
theorem variant_rawText_eq (text filename : List Char) :
    (parseMCQVariant text filename).map MCQQuestion.rawText = some text := by
  rw [parseMCQVariant]
  rw [Option.map_some']

/-- C9 counterexample: the two extractor files are NOT behaviorally
equivalent: on a text whose question-mark sentence is followed by further
words, the canonical file keeps the whole text as the body (its boundary
strategy accepts the full prefix) while the variant file's question-word
pattern stops at the question mark, so the two Question records differ. -/
theorem variant_equivalence_cex :
    (parseMCQFromText
        (String.toList "zzz zzz zzz zzz zzz zzz zzz zzz zzz zzz zzz zzz zzz Which way? more words come later here")
        (String.toList "f.png")).map MCQQuestion.question ≠
      (parseMCQVariant
        (String.toList "zzz zzz zzz zzz zzz zzz zzz zzz zzz zzz zzz zzz zzz Which way? more words come later here")
        (String.toList "f.png")).map MCQQuestion.question := by
  decide

/-- C9 (amended): the two near-duplicate extractor files agree on the
questionId, filename and rawText fields for every input, and on the options
whenever the shared labeled pass already finds all four options (both then
skip their distinct gap-recovery blocks); they differ in question-body
extraction and in gap inference, so full behavioral equivalence fails. -/
theorem variant_partial_agreement (text filename : List Char) :
    (parseMCQFromText text filename).map MCQQuestion.questionId =
      (parseMCQVariant text filename).map MCQQuestion.questionId ∧
    (parseMCQFromText text filename).map MCQQuestion.filename =
      (parseMCQVariant text filename).map MCQQuestion.filename ∧
    (parseMCQFromText text filename).map MCQQuestion.rawText =
      (parseMCQVariant text filename).map MCQQuestion.rawText ∧
    ((labeledOptions (normalizeText text)).length = 4 →
      (parseMCQFromText text filename).map MCQQuestion.options =
        (parseMCQVariant text filename).map MCQQuestion.options) := by
  refine ⟨?_, ?_, ?_, ?_⟩
  · rw [parse_questionId_eq, variant_questionId_eq]
  · rw [parse_filename_eq, variant_filename_eq]
  · rw [parse_rawText_eq, variant_rawText_eq]
  · intro hlen
    rw [parse_options_eq, variant_options_eq]
    have heq : finalOptionsOf (normalizeText text) =
        variantFinalOptionsOf (normalizeText text) := by
      unfold finalOptionsOf variantFinalOptionsOf
      rw [if_neg (by omega), if_neg (by omega)]
    rw [heq]

/-- C9 witness: on a text where the labeled pass finds all four options, the
two files return the same options. -/
theorem variant_partial_agreement_w :
    (parseMCQFromText
        (String.toList "(A) alphaaa (B) bravooo (C) charlie (D) deltaaa")
        (String.toList "s.png")).map MCQQuestion.options =
      (parseMCQVariant
        (String.toList "(A) alphaaa (B) bravooo (C) charlie (D) deltaaa")
        (String.toList "s.png")).map MCQQuestion.options :=
  (variant_partial_agreement
      (String.toList "(A) alphaaa (B) bravooo (C) charlie (D) deltaaa")
      (String.toList "s.png")).2.2.2 (by decide)

end MLS
